import Mathlib

/-!
Verification of the file-organizer's classification, prioritization,
resolution and execution logic (`main.py`) against its design document.

The Python source is shallowly embedded: per-file inventory records become a
structure, the mutable suggestion list becomes an accumulating fold, the
hash-grouping dict becomes an association list built by the same
insert-or-append discipline, and the interactive resolver becomes a function
threading the standing-policy map and the remaining line-based input.
Timestamps are modelled as integers; only their ordering is used by the code.
-/

/-! ## String and path utilities mirroring Python `str` / `pathlib.Path` -/

/-- Index of the last occurrence of `c` in `l` (Python `str.rfind` when it
does not return `-1`). -/
def rlastIdx (c : Char) : List Char → Option Nat
  | [] => none
  | a :: as =>
    match rlastIdx c as with
    | some i => some (i + 1)
    | none => if a = c then some 0 else none

/-- `pathlib.PurePath.suffix` of a file *name*: the part from the last dot,
provided that dot is neither the first nor the last character. -/
def pySuffixL (name : List Char) : List Char :=
  match rlastIdx '.' name with
  | some i => if 0 < i ∧ i + 1 < name.length then name.drop i else []
  | none => []

/-- `pathlib.PurePath.stem` of a file *name*: everything before the suffix. -/
def pyStemL (name : List Char) : List Char :=
  match rlastIdx '.' name with
  | some i => if 0 < i ∧ i + 1 < name.length then name.take i else name
  | none => name

/-- `pathlib.PurePath.name`: the component after the last `/`. -/
def pathNameL (p : List Char) : List Char :=
  match rlastIdx '/' p with
  | some i => p.drop (i + 1)
  | none => p

/-- `pathlib.PurePath.parent` for the absolute resolved paths the program
works with. -/
def pathParentL (p : List Char) : List Char :=
  match rlastIdx '/' p with
  | some i => if i = 0 then ['/'] else p.take i
  | none => p

def pySuffix (name : String) : String := String.mk (pySuffixL name.toList)

def pyStem (name : String) : String := String.mk (pyStemL name.toList)

def pathName (p : String) : String := String.mk (pathNameL p.toList)

def pathParent (p : String) : String := String.mk (pathParentL p.toList)

/-- `Path(parent) / name` for a resolved absolute parent. -/
def pathJoin (d n : String) : String :=
  if d = "/" then "/" ++ n else d ++ "/" ++ n

/-- Substring test on character lists (Python `needle in hay`). -/
def containsSub (needle : List Char) : List Char → Bool
  | [] => needle.isPrefixOf []
  | c :: rest => needle.isPrefixOf (c :: rest) || containsSub needle rest

/-- Python `needle in hay` for strings. -/
def strContains (hay needle : String) : Bool :=
  containsSub needle.toList hay.toList

/-- Python `s.startswith(pre)`. -/
def strStartsWith (s pre : String) : Bool :=
  pre.toList.isPrefixOf s.toList

/-- Python `s.endswith(post)`. -/
def strEndsWith (s post : String) : Bool :=
  post.toList.isSuffixOf s.toList

/-- Python `str.replace(c, sub)` for a single-character pattern `c`. -/
def replaceCharL (c : Char) (sub : List Char) : List Char → List Char
  | [] => []
  | a :: as => (if a = c then sub else [a]) ++ replaceCharL c sub as

/-! ## Data model -/

/-- One scanned file: the dict built by `get_file_stats` plus the `hash`
field added by `scan_directories`.  `hash` is either a hex digest or an
`"ERROR: ..."` marker. -/
structure FileStats where
  path : String
  size : Nat
  mtime : Int
  ctime : Int
  permissions_octal : String
  hash : String
deriving DecidableEq, Repr

/-- One proposed action: the dict appended by `analyze_and_suggest_actions`.
Kinds and actions are the literal strings the source uses. -/
structure Suggestion where
  type : String
  path : String
  suggestion : String
  reason : String
  target_path : Option String
deriving DecidableEq, Repr

/-- The dict returned by `load_config` (with `target_dir` already set by
`main`). -/
structure Config where
  permissions : String
  trouble_chars : List Char
  substitute : String
  temp_exts : List String
  target_dir : String
deriving DecidableEq, Repr

/-- A value stored in the config dict. -/
inductive ConfigVal where
  | str (s : String)
  | chars (l : List Char)
  | strs (l : List String)
  | pathVal (p : String)
deriving DecidableEq, Repr

/-- Dict lookup on the config object: exactly the five keys `load_config`
returns exist; any other key raises `KeyError` (here: `none`). -/
def configLookup (c : Config) : String → Option ConfigVal
  | "permissions" => some (.str c.permissions)
  | "trouble_chars" => some (.chars c.trouble_chars)
  | "substitute" => some (.str c.substitute)
  | "temp_exts" => some (.strs c.temp_exts)
  | "target_dir" => some (.pathVal c.target_dir)
  | _ => none

/-- `symbolic_to_octal`'s per-character permission value. -/
def permissionVal (c : Char) : Nat :=
  if c = 'r' then 4 else if c = 'w' then 2 else if c = 'x' then 1 else 0

/-- `symbolic_to_octal`: convert `rw-r--r--` to `644`; a string that is not
9 characters long raises `ValueError` (here: `none`). -/
def symbolic_to_octal (sym : String) : Option String :=
  let l := sym.toList
  if l.length = 9 then
    some (toString ((l.take 3).map permissionVal).sum
      ++ toString (((l.drop 3).take 3).map permissionVal).sum
      ++ toString ((l.drop 6).map permissionVal).sum)
  else none

/-- The default troublesome characters `:;*?"$#`|\.` from `load_config`
(the backquote written via its code point). -/
def defaultTroubleChars : List Char :=
  [':', ';', '*', '?', '"', '$', '#', Char.ofNat 96, '|', '\\', '.']

/-- The default temporary-file suffix list from `load_config`. -/
def defaultTempExts : List String := [".tmp", "~", ".bak", ".DS_Store"]

/-- The config `load_config` produces from the default settings, with the
target directory substituted in by `main`. -/
def defaultConfig (targetDir : String) : Config :=
  { permissions := (symbolic_to_octal "rw-r--r--").getD ""
    trouble_chars := defaultTroubleChars
    substitute := "_"
    temp_exts := defaultTempExts
    target_dir := targetDir }

/-! ## Hash grouping (`scan_directories`'s `hash_map`) -/

/-- Insert one record into the hash map, mirroring
`if file_hash not in hash_map: hash_map[file_hash] = []` followed by
`hash_map[file_hash].append(stats)`: the existing entry is extended at the
end, otherwise a new key is added at the end (dict insertion order). -/
def addFile : List (String × List FileStats) → FileStats → List (String × List FileStats)
  | [], f => [(f.hash, [f])]
  | (k, v) :: rest, f =>
    if k = f.hash then (k, v ++ [f]) :: rest else (k, v) :: addFile rest f

/-- The `hash_map` built while scanning, as a function of the scanned
records in scan order. -/
def buildHashMap (files : List FileStats) : List (String × List FileStats) :=
  files.foldl addFile []

/-- Dict lookup in the hash map. -/
def mapFind (m : List (String × List FileStats)) (h : String) : Option (List FileStats) :=
  (m.find? (fun e => e.1 == h)).map (·.2)

/-! ## Classifier (`analyze_and_suggest_actions`) -/

/-- Python `min(file_list, key=lambda x: x['ctime'])` on the nonempty list
`x :: xs`: keeps the first element attaining the minimum. -/
def pyMinCtime (x : FileStats) (xs : List FileStats) : FileStats :=
  xs.foldl (fun m r => if r.ctime < m.ctime then r else m) x

/-- The suggestions step 1 emits for one hash group (`for file_hash,
file_list in hash_map.items()` body). -/
def groupSuggs (cfg : Config) (fileHash : String) (fileList : List FileStats) :
    List Suggestion :=
  if strContains fileHash "ERROR" then []
  else
    match fileList with
    | [] => []
    | f0 :: rest =>
      if f0.size = 0 then []
      else if fileList.length ≤ 1 then []
      else
        let original := pyMinCtime f0 rest
        fileList.flatMap fun f =>
          if f.path ≠ original.path then
            [{ type := "DUPLICATE", path := f.path, suggestion := "DELETE",
               reason := "Identyczna zawartość (" ++ fileHash ++ "). Oryginał: "
                 ++ original.path,
               target_path := none }]
          else if ¬ (strStartsWith original.path cfg.target_dir) then
            [{ type := "MOVE_ORIGINAL", path := original.path,
               suggestion := "MOVE_TO_X",
               reason := "Oryginalny plik (" ++ fileHash
                 ++ ") powinien znaleźć się w X.",
               target_path := some (pathJoin cfg.target_dir (pathName original.path)) }]
          else []

/-- Step 1 of the classifier: content duplicates and original relocation. -/
def pass1 (hashMap : List (String × List FileStats)) (cfg : Config) :
    List Suggestion :=
  hashMap.flatMap fun e => groupSuggs cfg e.1 e.2

/-- The rename target stem: `for char in trouble_chars: if char in new_stem:
new_stem = new_stem.replace(char, substitute); needs_rename = True`. -/
def substituteTrouble (chars : List Char) (sub : List Char) (stem : List Char) :
    List Char × Bool :=
  chars.foldl
    (fun acc c => if c ∈ acc.1 then (replaceCharL c sub acc.1, true) else acc)
    (stem, false)

/-- The stem-substitution outcome for the name of path `p`: the substituted
stem and the `needs_rename` flag. -/
def newStemPair (cfg : Config) (p : String) : List Char × Bool :=
  substituteTrouble cfg.trouble_chars cfg.substitute.toList (pyStem (pathName p)).toList

/-- `new_name = new_stem + file_suffix` for the record at path `p`. -/
def newNameOf (cfg : Config) (p : String) : String :=
  String.mk (newStemPair cfg p).1 ++ pySuffix (pathName p)

/-- The EMPTY_FILE suggestion for path `p`. -/
def emptySugg (p : String) : Suggestion :=
  { type := "EMPTY_FILE", path := p, suggestion := "DELETE",
    reason := "Plik pusty (rozmiar = 0)", target_path := none }

/-- The TEMP_FILE suggestion for path `p`. -/
def tempSugg (p : String) : Suggestion :=
  { type := "TEMP_FILE", path := p, suggestion := "DELETE",
    reason := "Plik tymczasowy (" ++ pySuffix (pathName p) ++ ")",
    target_path := none }

/-- The RENAME suggestion for path `p`. -/
def renameSugg (cfg : Config) (p : String) : Suggestion :=
  { type := "RENAME", path := p, suggestion := "RENAME",
    reason := "Nazwa zawiera kłopotliwe znaki. Sugerowana nazwa: " ++ newNameOf cfg p,
    target_path := some (pathJoin (pathParent p) (newNameOf cfg p)) }

/-- The PERMISSIONS suggestion for a record `f`. -/
def permSugg (f : FileStats) : Suggestion :=
  { type := "PERMISSIONS", path := f.path, suggestion := "CHMOD",
    reason := "Niepoprawne uprawnienia: " ++ f.permissions_octal
      ++ ". Sugerowane: 644",
    target_path := none }

/-- Step 2 of the classifier for one record: empty files, temporary files,
troublesome names and permissions, appended to the suggestions accumulated
so far (the fold state), skipping records already slated for deletion. -/
def pass2step (cfg : Config) (sugg : List Suggestion) (f : FileStats) :
    List Suggestion :=
  if sugg.any (fun s => s.path == f.path && s.suggestion == "DELETE") then sugg
  else if f.size = 0 then sugg ++ [emptySugg f.path]
  else if cfg.temp_exts.contains (pySuffix (pathName f.path))
      || cfg.temp_exts.any (fun ext => strEndsWith (pathName f.path) ext) then
    sugg ++ [tempSugg f.path]
  else
    let renameSuggs :=
      if (newStemPair cfg f.path).2 ∧ newNameOf cfg f.path ≠ pathName f.path then
        [renameSugg cfg f.path]
      else []
    let permSuggs :=
      if f.permissions_octal ≠ cfg.permissions then [permSugg f] else []
    sugg ++ renameSuggs ++ permSuggs

/-- `analyze_and_suggest_actions`: step 1 over the hash map, then step 2
over every record.  Step 3 (version conflicts) is only a comment in the
source and emits nothing. -/
def analyze_and_suggest_actions (allFiles : List FileStats)
    (hashMap : List (String × List FileStats)) (cfg : Config) : List Suggestion :=
  allFiles.foldl (pass2step cfg) (pass1 hashMap cfg)

/-! ## Prioritizer (`main`'s `SORT_ORDER` sort) -/

/-- `SORT_ORDER.get(s['type'], 99)`: the sort key used by `main`. -/
def skey (s : Suggestion) : Nat :=
  if s.type = "TEMP_FILE" then 1
  else if s.type = "EMPTY_FILE" then 2
  else if s.type = "DUPLICATE" then 3
  else if s.type = "RENAME" then 4
  else if s.type = "PERMISSIONS" then 5
  else if s.type = "MOVE_ORIGINAL" then 6
  else 99

/-- Stable insertion of a later-emitted suggestion: it goes after every
already-placed suggestion whose key is less than or equal to its own. -/
def insertS (x : Suggestion) : List Suggestion → List Suggestion
  | [] => [x]
  | y :: ys => if skey y ≤ skey x then y :: insertS x ys else x :: y :: ys

/-- `suggestions.sort(key=lambda s: SORT_ORDER.get(s['type'], 99))`:
Python's `list.sort` is a stable sort by key, modelled as stable insertion
of the elements in emission order. -/
def sortSuggestions (l : List Suggestion) : List Suggestion :=
  l.foldl (fun acc x => insertS x acc) []

/-- The suggestions of `l` whose sort key is `k`, in emission order. -/
def keyFilter (k : Nat) (l : List Suggestion) : List Suggestion :=
  l.filter (fun s => skey s == k)

/-- The possible values of `skey`, in increasing order. -/
def skeys : List Nat := [1, 2, 3, 4, 5, 6, 99]

/-- The canonical form of a stable sort by `skey`: the key classes
concatenated in increasing key order, each in emission order. -/
def charSortAux (ks : List Nat) (l : List Suggestion) : List Suggestion :=
  match ks with
  | [] => []
  | k :: rest => keyFilter k l ++ charSortAux rest l

/-- The key classes of `l` in the code's key order, each preserving
emission order. -/
def charSort (l : List Suggestion) : List Suggestion := charSortAux skeys l

/-- Modelled from the spec's words: the severity order the design document
prescribes for the prioritizer (EMPTY_FILE, TEMP_FILE, DUPLICATE,
VERSION_CONFLICT, RENAME, PERMISSIONS, MOVE_ORIGINAL, unknown last). -/
def specSortKey (kind : String) : Nat :=
  if kind = "EMPTY_FILE" then 1
  else if kind = "TEMP_FILE" then 2
  else if kind = "DUPLICATE" then 3
  else if kind = "VERSION_CONFLICT" then 4
  else if kind = "RENAME" then 5
  else if kind = "PERMISSIONS" then 6
  else if kind = "MOVE_ORIGINAL" then 7
  else 99

/-! ## Resolver (`execute_actions` + `get_user_choice`) -/

/-- The value `get_user_choice` returns. -/
inductive Choice where
  | PERFORM
  | NO_ACTION
  | ALWAYS_PERFORM
  | ALWAYS_SKIP
deriving DecidableEq, Repr

/-- `get_user_choice`: consume normalized response lines until a valid one;
`EOFError` (exhausted input) yields `NO_ACTION`; an unrecognized answer at
either prompt re-prompts at the outer question. -/
def get_user_choice : List String → Choice × List String
  | [] => (.NO_ACTION, [])
  | tok :: rest =>
    if tok = "y" ∨ tok = "yes" then (.PERFORM, rest)
    else if tok = "n" ∨ tok = "no" then (.NO_ACTION, rest)
    else if tok = "g" then
      match rest with
      | [] => (.NO_ACTION, [])
      | gtok :: rest2 =>
        if gtok = "y" then (.ALWAYS_PERFORM, rest2)
        else if gtok = "n" then (.ALWAYS_SKIP, rest2)
        else get_user_choice rest2
    else get_user_choice rest

/-- The `global_actions` dict: suggestion type to `"PERFORM"` or `"SKIP"`. -/
def lookupGA (ga : List (String × String)) (k : String) : Option String :=
  (ga.find? (fun e => e.1 == k)).map (·.2)

/-- `global_actions[action_type] = action`. -/
def setGA (ga : List (String × String)) (k v : String) : List (String × String) :=
  match ga with
  | [] => [(k, v)]
  | (k', v') :: rest =>
    if k' = k then (k', v) :: rest else (k', v') :: setGA rest k v

/-- One iteration of `execute_actions`' loop, restricted to verdict
resolution: returns the `action` string the loop computes for this
suggestion, plus the updated policy map and remaining input. -/
def resolveStep (ga : List (String × String)) (inp : List String)
    (s : Suggestion) : String × List (String × String) × List String :=
  match lookupGA ga s.type with
  | some act => (act, ga, inp)
  | none =>
    match get_user_choice inp with
    | (.ALWAYS_PERFORM, inp') => ("PERFORM", setGA ga s.type "PERFORM", inp')
    | (.ALWAYS_SKIP, inp') => ("SKIP", setGA ga s.type "SKIP", inp')
    | (.PERFORM, inp') => ("PERFORM", ga, inp')
    | (.NO_ACTION, inp') => ("NO_ACTION", ga, inp')

/-- The whole resolution loop: each suggestion paired with its verdict, and
the final policy map and remaining input. -/
def resolveAll (suggs : List Suggestion) (ga : List (String × String))
    (inp : List String) :
    List (Suggestion × String) × List (String × String) × List String :=
  match suggs with
  | [] => ([], ga, inp)
  | s :: rest =>
    let r := resolveStep ga inp s
    let t := resolveAll rest r.2.1 r.2.2
    ((s, r.1) :: t.1, t.2)

/-! ## Executor (`perform_action`) -/

/-- A file in the executor's filesystem model. -/
structure FSFile where
  content : String
  perms : String
deriving DecidableEq, Repr

/-- The filesystem: an association list from path to file. -/
abbrev FS := List (String × FSFile)

def fsGet (fs : FS) (p : String) : Option FSFile :=
  (fs.find? (fun e => e.1 == p)).map (·.2)

def fsErase (fs : FS) (p : String) : FS :=
  fs.filter (fun e => ¬ e.1 == p)

def fsSet (fs : FS) (p : String) (f : FSFile) : FS :=
  fsErase fs p ++ [(p, f)]

/-- The outcome `perform_action` reports (its printed message plus return
value; `noResult` is the `None` the function returns when a `MOVE_TO_X` or
`RENAME` suggestion carries no target path). -/
inductive Outcome where
  | success
  | notFound
  | permissionDenied
  | otherError
  | unknownAction
  | noResult
deriving DecidableEq, Repr

/-- `perform_action`: apply one approved suggestion to the filesystem.
`DELETE` is `os.remove`; `MOVE_TO_X` is `shutil.move` (parent creation is a
no-op in this flat model; an existing destination file is silently
replaced); `RENAME` is `Path.rename` (POSIX semantics: an existing
destination file is silently replaced); `CHMOD` reads the config key
`permissions_octal`, which `load_config` never creates, so the `KeyError`
lands in the generic `except` branch; and were the key present its value
would be a string, which `os.chmod` rejects with `TypeError`. -/
def perform_action (s : Suggestion) (cfg : Config) (fs : FS) : Outcome × FS :=
  if s.suggestion = "DELETE" then
    match fsGet fs s.path with
    | none => (.notFound, fs)
    | some _ => (.success, fsErase fs s.path)
  else if s.suggestion = "MOVE_TO_X" then
    match s.target_path with
    | none => (.noResult, fs)
    | some t =>
      match fsGet fs s.path with
      | none => (.notFound, fs)
      | some f => (.success, fsSet (fsErase fs s.path) t f)
  else if s.suggestion = "RENAME" then
    match s.target_path with
    | none => (.noResult, fs)
    | some t =>
      match fsGet fs s.path with
      | none => (.notFound, fs)
      | some f => (.success, fsSet (fsErase fs s.path) t f)
  else if s.suggestion = "CHMOD" then
    match configLookup cfg "permissions_octal" with
    | none => (.otherError, fs)
    | some _ => (.otherError, fs)
  else if s.suggestion = "NO_ACTION" then (.success, fs)
  else (.unknownAction, fs)

/-- Modelled from the spec's words: a path is within or below a directory
when it is the directory itself or the directory followed by a path
separator is a prefix of it. -/
def specPathWithin (p t : String) : Bool :=
  p == t || strStartsWith p (t ++ "/")

/-! ## Structural lemmas about the classifier -/

theorem mem_groupSuggs_shape {cfg : Config} {h : String} {l : List FileStats}
    {s : Suggestion} (hs : s ∈ groupSuggs cfg h l) :
    strContains h "ERROR" = false
    ∧ ∃ f0 rest, l = f0 :: rest ∧ f0.size ≠ 0 ∧ 1 < l.length
    ∧ ((∃ f ∈ l, f.path ≠ (pyMinCtime f0 rest).path
          ∧ s = { type := "DUPLICATE", path := f.path, suggestion := "DELETE",
                  reason := "Identyczna zawartość (" ++ h ++ "). Oryginał: "
                    ++ (pyMinCtime f0 rest).path,
                  target_path := none })
        ∨ (strStartsWith (pyMinCtime f0 rest).path cfg.target_dir = false
          ∧ s = { type := "MOVE_ORIGINAL", path := (pyMinCtime f0 rest).path,
                  suggestion := "MOVE_TO_X",
                  reason := "Oryginalny plik (" ++ h
                    ++ ") powinien znaleźć się w X.",
                  target_path := some (pathJoin cfg.target_dir
                    (pathName (pyMinCtime f0 rest).path)) })) := by
  cases l with
  | nil => simp [groupSuggs] at hs
  | cons f0 rest =>
    simp only [groupSuggs] at hs
    split at hs
    · simp at hs
    · split at hs
      · simp at hs
      · split at hs
        · simp at hs
        · rename_i herr hsz hlen
          rw [List.mem_flatMap] at hs
          obtain ⟨f, hf, hmem⟩ := hs
          refine ⟨by simpa using herr, f0, rest, rfl, hsz, Nat.lt_of_not_le hlen, ?_⟩
          split at hmem
          · rename_i hne
            simp only [List.mem_singleton] at hmem
            exact Or.inl ⟨f, hf, hne, hmem⟩
          · split at hmem
            · rename_i hst
              simp only [List.mem_singleton] at hmem
              exact Or.inr ⟨by simpa using hst, hmem⟩
            · simp at hmem

theorem mem_pass1 {hm : List (String × List FileStats)} {cfg : Config}
    {s : Suggestion} (hs : s ∈ pass1 hm cfg) :
    ∃ e ∈ hm, s ∈ groupSuggs cfg e.1 e.2 := by
  rw [pass1, List.mem_flatMap] at hs
  exact hs

theorem mem_pass1_type {hm : List (String × List FileStats)} {cfg : Config}
    {s : Suggestion} (hs : s ∈ pass1 hm cfg) :
    s.type = "DUPLICATE" ∨ s.type = "MOVE_ORIGINAL" := by
  obtain ⟨e, _, hmem⟩ := mem_pass1 hs
  obtain ⟨-, f0, rest, -, -, -, h | h⟩ := mem_groupSuggs_shape hmem
  · obtain ⟨f, -, -, rfl⟩ := h
    left; rfl
  · right; rw [h.2]

theorem pass2step_mem {cfg : Config} {acc : List Suggestion} {f : FileStats}
    {s : Suggestion} (hs : s ∈ pass2step cfg acc f) :
    s ∈ acc ∨ s = emptySugg f.path ∨ s = tempSugg f.path
      ∨ (s = renameSugg cfg f.path ∧ newNameOf cfg f.path ≠ pathName f.path)
      ∨ s = permSugg f := by
  unfold pass2step at hs
  split at hs
  · exact Or.inl hs
  · split at hs
    · rcases List.mem_append.1 hs with h | h
      · exact Or.inl h
      · simp at h; exact Or.inr (Or.inl h)
    · split at hs
      · rcases List.mem_append.1 hs with h | h
        · exact Or.inl h
        · simp at h; exact Or.inr (Or.inr (Or.inl h))
      · simp only [List.append_assoc, List.mem_append] at hs
        rcases hs with h | h | h
        · exact Or.inl h
        · split at h
          · rename_i hguard
            simp only [List.mem_singleton] at h
            exact Or.inr (Or.inr (Or.inr (Or.inl ⟨h, hguard.2⟩)))
          · simp at h
        · split at h
          · simp only [List.mem_singleton] at h
            exact Or.inr (Or.inr (Or.inr (Or.inr h)))
          · simp at h

theorem foldl_pass2_mem {cfg : Config} {s : Suggestion} :
    ∀ {fs : List FileStats} {acc : List Suggestion},
    s ∈ fs.foldl (pass2step cfg) acc →
    s ∈ acc ∨ ∃ f ∈ fs, s = emptySugg f.path ∨ s = tempSugg f.path
      ∨ (s = renameSugg cfg f.path ∧ newNameOf cfg f.path ≠ pathName f.path)
      ∨ s = permSugg f := by
  intro fs
  induction fs with
  | nil => intro acc hs; exact Or.inl hs
  | cons f fs ih =>
    intro acc hs
    rcases ih hs with h | ⟨g, hg, h⟩
    · rcases pass2step_mem h with h | h
      · exact Or.inl h
      · exact Or.inr ⟨f, List.mem_cons_self f fs, h⟩
    · exact Or.inr ⟨g, List.mem_cons_of_mem f hg, h⟩

theorem analyze_mem {files : List FileStats} {hm : List (String × List FileStats)}
    {cfg : Config} {s : Suggestion}
    (hs : s ∈ analyze_and_suggest_actions files hm cfg) :
    s ∈ pass1 hm cfg ∨ ∃ f ∈ files, s = emptySugg f.path ∨ s = tempSugg f.path
      ∨ (s = renameSugg cfg f.path ∧ newNameOf cfg f.path ≠ pathName f.path)
      ∨ s = permSugg f :=
  foldl_pass2_mem hs

/-! ## Claim C1 -/

/-- Claim C1 (counterexample): the end-to-end scenario the claim relies on —
two files named `draft.docx` with different fingerprints, the second
modified later — produces no suggestion at all, and in particular no
VERSION_CONFLICT/DELETE on the older one. -/
theorem c1_counterexample :
    analyze_and_suggest_actions
      [⟨"/y/draft.docx", 5, 10, 1, "644", "aaa1"⟩,
       ⟨"/z/draft.docx", 6, 20, 2, "644", "bbb2"⟩]
      (buildHashMap
        [⟨"/y/draft.docx", 5, 10, 1, "644", "aaa1"⟩,
         ⟨"/z/draft.docx", 6, 20, 2, "644", "bbb2"⟩])
      (defaultConfig "/x") = []
    ∧ pathName "/y/draft.docx" = pathName "/z/draft.docx"
    ∧ ("aaa1" : String) ≠ "bbb2"
    ∧ (10 : Int) < 20 := by
  refine ⟨by decide, by decide, by decide, by decide⟩

/-- Claim C1 (amended): the version-conflict pass of
`analyze_and_suggest_actions` is unimplemented (it is only a comment in the
source), so classification never emits a VERSION_CONFLICT suggestion for
any inventory. -/
theorem c1_no_version_conflict (files : List FileStats)
    (hm : List (String × List FileStats)) (cfg : Config) (s : Suggestion)
    (hs : s ∈ analyze_and_suggest_actions files hm cfg) :
    s.type ≠ "VERSION_CONFLICT" := by
  rcases analyze_mem hs with h | ⟨f, hf, h | h | ⟨h, -⟩ | h⟩
  · rcases mem_pass1_type h with h | h <;> rw [h] <;> decide
  · rw [h]; exact (by decide : ("EMPTY_FILE" : String) ≠ "VERSION_CONFLICT")
  · rw [h]; exact (by decide : ("TEMP_FILE" : String) ≠ "VERSION_CONFLICT")
  · rw [h]; exact (by decide : ("RENAME" : String) ≠ "VERSION_CONFLICT")
  · rw [h]; exact (by decide : ("PERMISSIONS" : String) ≠ "VERSION_CONFLICT")

/-- Claim C1 (witness for the amended theorem). -/
theorem c1_witness :
    emptySugg "/y/a.txt" ∈ analyze_and_suggest_actions
      [⟨"/y/a.txt", 0, 10, 1, "644", "h0"⟩]
      (buildHashMap [⟨"/y/a.txt", 0, 10, 1, "644", "h0"⟩]) (defaultConfig "/x")
    ∧ (emptySugg "/y/a.txt").type ≠ "VERSION_CONFLICT" :=
  ⟨by decide,
   c1_no_version_conflict [⟨"/y/a.txt", 0, 10, 1, "644", "h0"⟩]
     (buildHashMap [⟨"/y/a.txt", 0, 10, 1, "644", "h0"⟩]) (defaultConfig "/x")
     (emptySugg "/y/a.txt") (by decide)⟩

/-! ## Claim C3 -/

/-- Claim C3 (code bug): the CHMOD branch of `perform_action` reads
`config['permissions_octal']`, a key `load_config` never creates (it stores
the target profile under `permissions`), so every CHMOD execution raises
`KeyError`, is caught by the generic handler, reports failure, and leaves
the filesystem — including the subject file's permission bits — unchanged. -/
theorem c3_chmod_always_fails (t p r : String) (tp : Option String)
    (cfg : Config) (fs : FS) :
    perform_action
        { type := t, path := p, suggestion := "CHMOD", reason := r,
          target_path := tp } cfg fs
      = (Outcome.otherError, fs)
    ∧ configLookup cfg "permissions_octal" = none
    ∧ configLookup cfg "permissions" = some (ConfigVal.str cfg.permissions) :=
  ⟨rfl, rfl, rfl⟩

/-! ## Claim C4 -/

theorem find?_append_key {p : String} {f : FSFile} :
    ∀ {A : FS}, (∀ e ∈ A, (e.1 == p) = false) →
    List.find? (fun e => e.1 == p) (A ++ [(p, f)]) = some (p, f) := by
  intro A
  induction A with
  | nil => intro _; simp
  | cons e A ih =>
    intro hA
    rw [List.cons_append, List.find?_cons_of_neg, ih]
    · intro x hx; exact hA x (List.mem_cons_of_mem e hx)
    · simp [hA e (List.mem_cons_self e A)]

theorem fsGet_fsSet_self (fs : FS) (p : String) (f : FSFile) :
    fsGet (fsSet fs p f) p = some f := by
  rw [fsSet, fsGet, find?_append_key]
  · rfl
  · intro e he
    rw [fsErase, List.mem_filter] at he
    simpa using he.2

/-- Claim C4 (counterexample): an approved RENAME whose destination exists
is not skipped: the executor replaces the destination file with the source
file and reports success, where the claim requires a destination-conflict
outcome with no overwrite. -/
theorem c4_counterexample :
    perform_action
        { type := "RENAME", path := "/y/src.txt", suggestion := "RENAME",
          reason := "r", target_path := some "/y/dst.txt" }
        (defaultConfig "/x")
        [("/y/src.txt", ⟨"A", "644"⟩), ("/y/dst.txt", ⟨"B", "644"⟩)]
      = (Outcome.success, [("/y/dst.txt", ⟨"A", "644"⟩)])
    ∧ fsGet [("/y/src.txt", ⟨"A", "644"⟩), ("/y/dst.txt", ⟨"B", "644"⟩)]
        "/y/dst.txt" = some ⟨"B", "644"⟩
    ∧ (⟨"B", "644"⟩ : FSFile) ≠ ⟨"A", "644"⟩ := by
  refine ⟨by decide, by decide, by decide⟩

/-- Claim C4 (amended): for an approved MOVE or RENAME whose source exists,
the executor performs the relocation unconditionally — an already-existing
destination file is silently replaced by the source file and the operation
reports success; no destination-conflict outcome exists in the code. -/
theorem c4_move_overwrites (act t src dst r : String) (cfg : Config) (fs : FS)
    (f : FSFile)
    (hact : act = "MOVE_TO_X" ∨ act = "RENAME")
    (hsrc : fsGet fs src = some f) :
    (perform_action
        { type := t, path := src, suggestion := act, reason := r,
          target_path := some dst } cfg fs).1 = Outcome.success
    ∧ fsGet (perform_action
        { type := t, path := src, suggestion := act, reason := r,
          target_path := some dst } cfg fs).2 dst = some f := by
  rcases hact with h | h <;> subst h <;>
    simp [perform_action, hsrc, fsGet_fsSet_self]

/-- Claim C4 (witness for the amended theorem). -/
theorem c4_witness :
    (("RENAME" : String) = "MOVE_TO_X" ∨ ("RENAME" : String) = "RENAME")
    ∧ fsGet [("/y/src.txt", (⟨"A", "644"⟩ : FSFile)),
        ("/y/dst.txt", ⟨"B", "644"⟩)] "/y/src.txt" = some ⟨"A", "644"⟩
    ∧ ((perform_action
          { type := "RENAME", path := "/y/src.txt", suggestion := "RENAME",
            reason := "r", target_path := some "/y/dst.txt" }
          (defaultConfig "/x")
          [("/y/src.txt", ⟨"A", "644"⟩), ("/y/dst.txt", ⟨"B", "644"⟩)]).1
        = Outcome.success
      ∧ fsGet (perform_action
          { type := "RENAME", path := "/y/src.txt", suggestion := "RENAME",
            reason := "r", target_path := some "/y/dst.txt" }
          (defaultConfig "/x")
          [("/y/src.txt", ⟨"A", "644"⟩), ("/y/dst.txt", ⟨"B", "644"⟩)]).2
          "/y/dst.txt" = some ⟨"A", "644"⟩) :=
  ⟨Or.inr rfl, by decide,
   c4_move_overwrites "RENAME" "RENAME" "/y/src.txt" "/y/dst.txt" "r"
     (defaultConfig "/x")
     [("/y/src.txt", ⟨"A", "644"⟩), ("/y/dst.txt", ⟨"B", "644"⟩)]
     ⟨"A", "644"⟩ (Or.inr rfl) (by decide)⟩

/-! ## Claim C2: the prioritizer is the stable key sort -/

theorem skey_mem_skeys (s : Suggestion) : skey s ∈ skeys := by
  rw [skey, skeys]
  split
  · simp
  all_goals split
  all_goals simp
  all_goals split
  all_goals simp_all
  all_goals split
  all_goals simp_all
  all_goals split
  all_goals simp_all
  all_goals split
  all_goals simp_all

theorem mem_keyFilter {k : Nat} {l : List Suggestion} {a : Suggestion}
    (ha : a ∈ keyFilter k l) : skey a = k := by
  rw [keyFilter, List.mem_filter] at ha
  simpa using ha.2

theorem mem_charSortAux {ks : List Nat} {l : List Suggestion} {a : Suggestion}
    (ha : a ∈ charSortAux ks l) : skey a ∈ ks := by
  induction ks with
  | nil => simp [charSortAux] at ha
  | cons k rest ih =>
    rw [charSortAux, List.mem_append] at ha
    rcases ha with h | h
    · rw [mem_keyFilter h]; exact List.mem_cons_self k rest
    · exact List.mem_cons_of_mem k (ih h)

theorem insertS_append_le {x : Suggestion} {B : List Suggestion} :
    ∀ {A : List Suggestion}, (∀ a ∈ A, skey a ≤ skey x) →
    insertS x (A ++ B) = A ++ insertS x B := by
  intro A
  induction A with
  | nil => intro _; rfl
  | cons a A ih =>
    intro hA
    rw [List.cons_append, insertS, if_pos (hA a (List.mem_cons_self a A)),
      ih (fun b hb => hA b (List.mem_cons_of_mem a hb)), List.cons_append]

theorem insertS_all_gt {x : Suggestion} {B : List Suggestion}
    (hB : ∀ b ∈ B, skey x < skey b) : insertS x B = x :: B := by
  cases B with
  | nil => rfl
  | cons b B =>
    rw [insertS, if_neg]
    exact Nat.not_le_of_lt (hB b (List.mem_cons_self b B))

theorem keyFilter_snoc (k : Nat) (p : List Suggestion) (x : Suggestion) :
    keyFilter k (p ++ [x])
      = keyFilter k p ++ (if skey x = k then [x] else []) := by
  rw [keyFilter, List.filter_append, keyFilter]
  congr 1
  split
  · simp_all
  · simp_all

theorem charSortAux_snoc_notmem {x : Suggestion} :
    ∀ {ks : List Nat}, skey x ∉ ks →
    ∀ p, charSortAux ks (p ++ [x]) = charSortAux ks p := by
  intro ks
  induction ks with
  | nil => intro _ p; rfl
  | cons k rest ih =>
    intro hx p
    rw [charSortAux, charSortAux, keyFilter_snoc,
      if_neg (fun h => hx (by rw [h]; exact List.mem_cons_self k rest)),
      List.append_nil, ih (fun h => hx (List.mem_cons_of_mem k h))]

theorem insertS_charSortAux {x : Suggestion} :
    ∀ {ks : List Nat}, List.Pairwise (· < ·) ks → skey x ∈ ks →
    ∀ p, insertS x (charSortAux ks p) = charSortAux ks (p ++ [x]) := by
  intro ks
  induction ks with
  | nil => intro _ hx; exact absurd hx (List.not_mem_nil _)
  | cons k rest ih =>
    intro hpw hx p
    rw [List.pairwise_cons] at hpw
    rw [charSortAux, charSortAux]
    by_cases hk : skey x = k
    · rw [insertS_append_le (fun a ha => Nat.le_of_eq (hk ▸ mem_keyFilter ha)),
        insertS_all_gt (fun b hb => hk ▸ hpw.1 _ (mem_charSortAux hb)),
        keyFilter_snoc, if_pos hk,
        charSortAux_snoc_notmem (fun hmem => Nat.lt_irrefl k (hk ▸ hpw.1 _ hmem)),
        List.append_assoc]
      rfl
    · have hxrest : skey x ∈ rest := by
        rcases List.mem_cons.1 hx with h | h
        · exact absurd h hk
        · exact h
      rw [insertS_append_le
          (fun a ha => Nat.le_of_lt ((mem_keyFilter ha) ▸ hpw.1 _ hxrest)),
        ih hpw.2 hxrest p, keyFilter_snoc, if_neg hk, List.append_nil]

theorem foldl_insertS_charSort :
    ∀ (l p : List Suggestion),
    l.foldl (fun acc x => insertS x acc) (charSort p) = charSort (p ++ l) := by
  intro l
  induction l with
  | nil => intro p; rw [List.append_nil, List.foldl_nil]
  | cons x l ih =>
    intro p
    rw [List.foldl_cons, charSort,
      insertS_charSortAux (by rw [skeys]; decide) (skey_mem_skeys x) p]
    have := ih (p ++ [x])
    rw [charSort] at this
    rw [this, List.append_assoc]
    rfl

/-- Claim C2 (counterexample): the code's sort puts TEMP_FILE before
EMPTY_FILE and leaves VERSION_CONFLICT out of `SORT_ORDER` entirely (so it
sorts last, not fourth); the resulting order violates the severity order the
claim states. -/
theorem c2_counterexample :
    sortSuggestions
        [{ type := "EMPTY_FILE", path := "/a", suggestion := "DELETE",
           reason := "r1", target_path := none },
         { type := "TEMP_FILE", path := "/b", suggestion := "DELETE",
           reason := "r2", target_path := none }]
      = [{ type := "TEMP_FILE", path := "/b", suggestion := "DELETE",
           reason := "r2", target_path := none },
         { type := "EMPTY_FILE", path := "/a", suggestion := "DELETE",
           reason := "r1", target_path := none }]
    ∧ ¬ List.Pairwise (fun a b : Suggestion => specSortKey a.type ≤ specSortKey b.type)
        (sortSuggestions
          [{ type := "EMPTY_FILE", path := "/a", suggestion := "DELETE",
             reason := "r1", target_path := none },
           { type := "TEMP_FILE", path := "/b", suggestion := "DELETE",
             reason := "r2", target_path := none }])
    ∧ ¬ List.Pairwise (fun a b : Suggestion => specSortKey a.type ≤ specSortKey b.type)
        (sortSuggestions
          [{ type := "VERSION_CONFLICT", path := "/c", suggestion := "DELETE",
             reason := "r3", target_path := none },
           { type := "RENAME", path := "/d", suggestion := "RENAME",
             reason := "r4", target_path := some "/e" }]) := by
  refine ⟨by decide, by decide, by decide⟩

/-- Claim C2 (amended): the prioritizer stable-sorts by kind in the order
TEMP_FILE, EMPTY_FILE, DUPLICATE, RENAME, PERMISSIONS, MOVE_ORIGINAL, with
every kind missing from `SORT_ORDER` — including VERSION_CONFLICT — after
all of these; within each kind the classifier's emission order is
preserved.  Equivalently, the sorted list is exactly the concatenation of
the kind classes in that key order, each in emission order. -/
theorem c2_sort_characterization (l : List Suggestion) :
    sortSuggestions l = charSort l := by
  have := foldl_insertS_charSort l []
  rw [sortSuggestions]
  simpa using this

/-! ## Claim C9: standing policies in the resolver -/

theorem resolveAll_length (l : List Suggestion) :
    ∀ ga inp, (resolveAll l ga inp).1.length = l.length := by
  induction l with
  | nil => intro ga inp; rfl
  | cons s l ih =>
    intro ga inp
    rw [resolveAll]
    simpa using ih _ _

theorem resolveAll_nil (ga : List (String × String)) (inp : List String) :
    resolveAll [] ga inp = ([], ga, inp) := rfl

theorem resolveAll_cons (s : Suggestion) (l : List Suggestion)
    (ga : List (String × String)) (inp : List String) :
    resolveAll (s :: l) ga inp
      = ((s, (resolveStep ga inp s).1) ::
          (resolveAll l (resolveStep ga inp s).2.1 (resolveStep ga inp s).2.2).1,
         (resolveAll l (resolveStep ga inp s).2.1 (resolveStep ga inp s).2.2).2) :=
  rfl

theorem resolveStep_policy {ga : List (String × String)} {inp : List String}
    {s : Suggestion} {v : String} (h : lookupGA ga s.type = some v) :
    resolveStep ga inp s = (v, ga, inp) := by
  rw [resolveStep, h]

theorem lookupGA_cons (a b : String) (l : List (String × String)) (k : String) :
    lookupGA ((a, b) :: l) k = if a == k then some b else lookupGA l k := by
  cases h : (a == k) <;> simp [lookupGA, List.find?, h]

theorem lookupGA_setGA_ne {k k' v : String} (hne : k' ≠ k) :
    ∀ ga, lookupGA (setGA ga k v) k' = lookupGA ga k' := by
  intro ga
  induction ga with
  | nil =>
    rw [setGA, lookupGA_cons, if_neg (by simpa using Ne.symm hne)]
  | cons e rest ih =>
    obtain ⟨a, b⟩ := e
    rw [setGA]
    split
    · rename_i hak
      rw [lookupGA_cons, lookupGA_cons,
        if_neg (by rw [hak]; simpa using Ne.symm hne),
        if_neg (by rw [hak]; simpa using Ne.symm hne)]
    · rw [lookupGA_cons, lookupGA_cons]
      by_cases hak : (a == k') = true
      · rw [if_pos hak, if_pos hak]
      · rw [if_neg hak, if_neg hak, ih]

theorem resolveStep_mono {ga : List (String × String)} {inp : List String}
    {s : Suggestion} {K v : String} (hpol : lookupGA ga K = some v) :
    lookupGA (resolveStep ga inp s).2.1 K = some v := by
  rw [resolveStep]
  cases hty : lookupGA ga s.type with
  | some act => simpa using hpol
  | none =>
    have hne : K ≠ s.type := by
      intro h; rw [h, hty] at hpol; exact Option.noConfusion hpol
    rcases hch : get_user_choice inp with ⟨choice, inp2⟩
    cases choice <;> simp only [] <;>
      first
        | simpa using hpol
        | (rw [lookupGA_setGA_ne hne]; exact hpol)

theorem resolveAll_policy_point {K v : String} :
    ∀ (l2 : List Suggestion) (ga : List (String × String)) (inp : List String),
    lookupGA ga K = some v →
    ∀ i (h : i < l2.length), (l2.get ⟨i, h⟩).type = K →
    (resolveAll l2 ga inp).1[i]? = some (l2.get ⟨i, h⟩, v)
    ∧ (resolveAll (l2.take (i + 1)) ga inp).2.2
        = (resolveAll (l2.take i) ga inp).2.2 := by
  intro l2
  induction l2 with
  | nil => intro ga inp _ i h; exact absurd h (by simp)
  | cons s rest ih =>
    intro ga inp hpol i h hty
    cases i with
    | zero =>
      rw [List.get] at hty
      have hstep : resolveStep ga inp s = (v, ga, inp) := by
        rw [resolveStep, hty, hpol]
      constructor
      · simp [resolveAll_cons, hstep, List.get]
      · simp [List.take_succ_cons, resolveAll_cons, resolveAll_nil, hstep]
    | succ i =>
      rw [List.get] at hty
      have hpol2 := @resolveStep_mono _ inp s _ _ hpol
      have hrec := ih (resolveStep ga inp s).2.1 (resolveStep ga inp s).2.2
        hpol2 i (Nat.lt_of_succ_lt_succ h) hty
      constructor
      · rw [resolveAll_cons]
        simpa [List.get] using hrec.1
      · rw [List.take_succ_cons, List.take_succ_cons, resolveAll_cons,
          resolveAll_cons]
        simpa using hrec.2

theorem resolveAll_append (l1 l2 : List Suggestion) :
    ∀ ga inp,
    (resolveAll (l1 ++ l2) ga inp).1
      = (resolveAll l1 ga inp).1
        ++ (resolveAll l2 (resolveAll l1 ga inp).2.1 (resolveAll l1 ga inp).2.2).1 := by
  induction l1 with
  | nil => intro ga inp; rfl
  | cons s l1 ih =>
    intro ga inp
    rw [List.cons_append, resolveAll, resolveAll]
    simpa using ih _ _

/-- Claim C9: once a standing policy for kind `K` has been installed (here:
after resolving a prefix `l1` of the run the `global_actions` dict maps `K`
to verdict `v`), every later suggestion of kind `K` receives exactly the
verdict `v` and consumes no interactive input, and the verdicts of the
suggestions already resolved are exactly those of the prefix run, unchanged
by the installation. -/
theorem c9_standing_policy (l1 l2 : List Suggestion)
    (ga0 : List (String × String)) (inp0 : List String) (K v : String)
    (hpol : lookupGA (resolveAll l1 ga0 inp0).2.1 K = some v) :
    ((resolveAll (l1 ++ l2) ga0 inp0).1
      = (resolveAll l1 ga0 inp0).1
        ++ (resolveAll l2 (resolveAll l1 ga0 inp0).2.1
              (resolveAll l1 ga0 inp0).2.2).1)
    ∧ ∀ i (h : i < l2.length), (l2.get ⟨i, h⟩).type = K →
        (resolveAll l2 (resolveAll l1 ga0 inp0).2.1
            (resolveAll l1 ga0 inp0).2.2).1[i]?
          = some (l2.get ⟨i, h⟩, v)
        ∧ (resolveAll (l2.take (i + 1)) (resolveAll l1 ga0 inp0).2.1
              (resolveAll l1 ga0 inp0).2.2).2.2
          = (resolveAll (l2.take i) (resolveAll l1 ga0 inp0).2.1
              (resolveAll l1 ga0 inp0).2.2).2.2 :=
  ⟨resolveAll_append l1 l2 ga0 inp0,
   fun i h hty => resolveAll_policy_point l2 _ _ hpol i h hty⟩

/-- The two concrete DUPLICATE suggestions used by the resolver witness. -/
def dupA : Suggestion :=
  { type := "DUPLICATE", path := "/a", suggestion := "DELETE",
    reason := "r", target_path := none }

/-- Second concrete DUPLICATE suggestion for the resolver witness. -/
def dupB : Suggestion :=
  { type := "DUPLICATE", path := "/b", suggestion := "DELETE",
    reason := "r2", target_path := none }

/-- Claim C9 (witness): a run whose first suggestion installs a global
PERFORM policy for DUPLICATE via the responses `g`, `y`; the second
DUPLICATE suggestion then receives verdict PERFORM with no input consumed
for it, and the first verdict is unchanged. -/
theorem c9_witness :
    lookupGA (resolveAll [dupA] [] ["g", "y"]).2.1 "DUPLICATE" = some "PERFORM"
    ∧ (((resolveAll ([dupA] ++ [dupB]) [] ["g", "y"]).1
        = (resolveAll [dupA] [] ["g", "y"]).1
          ++ (resolveAll [dupB] (resolveAll [dupA] [] ["g", "y"]).2.1
                (resolveAll [dupA] [] ["g", "y"]).2.2).1)
      ∧ ∀ i (h : i < ([dupB] : List Suggestion).length),
          (([dupB] : List Suggestion).get ⟨i, h⟩).type = "DUPLICATE" →
          (resolveAll [dupB] (resolveAll [dupA] [] ["g", "y"]).2.1
              (resolveAll [dupA] [] ["g", "y"]).2.2).1[i]?
            = some (([dupB] : List Suggestion).get ⟨i, h⟩, "PERFORM")
          ∧ (resolveAll (([dupB] : List Suggestion).take (i + 1))
                (resolveAll [dupA] [] ["g", "y"]).2.1
                (resolveAll [dupA] [] ["g", "y"]).2.2).2.2
            = (resolveAll (([dupB] : List Suggestion).take i)
                (resolveAll [dupA] [] ["g", "y"]).2.1
                (resolveAll [dupA] [] ["g", "y"]).2.2).2.2) :=
  ⟨by decide,
   c9_standing_policy [dupA] [dupB] [] ["g", "y"] "DUPLICATE" "PERFORM"
     (by decide)⟩

/-! ## The hash map characterization and claim C10 -/

theorem mapFind_cons (k : String) (v : List FileStats)
    (m : List (String × List FileStats)) (h : String) :
    mapFind ((k, v) :: m) h = if k == h then some v else mapFind m h := by
  cases hk : (k == h) <;> simp [mapFind, List.find?, hk]

theorem addFile_find (f : FileStats) (h : String) :
    ∀ m, mapFind (addFile m f) h
      = if h = f.hash then some ((mapFind m f.hash).getD [] ++ [f])
        else mapFind m h := by
  intro m
  induction m with
  | nil =>
    by_cases hh : h = f.hash
    · subst hh
      rw [addFile, mapFind_cons, if_pos (by simp), if_pos rfl]
      rfl
    · rw [addFile, mapFind_cons,
        if_neg (show ¬ (f.hash == h) = true by simpa using fun e => hh e.symm),
        if_neg hh]
  | cons e rest ih =>
    obtain ⟨k, v⟩ := e
    rw [addFile]
    split
    · rename_i hk
      by_cases hh : h = f.hash
      · subst hh
        rw [mapFind_cons, if_pos (by simpa using hk), if_pos rfl,
          mapFind_cons, if_pos (by simpa using hk)]
        rfl
      · have hkh : ¬ (k == h) = true := by
          simp only [beq_iff_eq]
          intro e; exact hh (e ▸ hk)
        rw [mapFind_cons, if_neg hkh, if_neg hh, mapFind_cons, if_neg hkh]
    · rename_i hk
      rw [mapFind_cons]
      by_cases hkh : (k == h) = true
      · have hh : ¬ h = f.hash := fun e => hk ((beq_iff_eq.mp hkh).trans e)
        rw [if_pos hkh, if_neg hh, mapFind_cons, if_pos hkh]
      · rw [if_neg hkh, ih]
        by_cases hh : h = f.hash
        · subst hh
          rw [if_pos rfl, if_pos rfl, mapFind_cons,
            if_neg (show ¬ (k == f.hash) = true by simpa using hk)]
        · rw [if_neg hh, if_neg hh, mapFind_cons, if_neg hkh]

theorem foldl_addFile_find (h : String) :
    ∀ (files : List FileStats) (m : List (String × List FileStats)),
    mapFind (files.foldl addFile m) h
      = match mapFind m h with
        | some l => some (l ++ files.filter (fun r => r.hash == h))
        | none =>
          if files.filter (fun r => r.hash == h) = [] then none
          else some (files.filter (fun r => r.hash == h)) := by
  intro files
  induction files with
  | nil =>
    intro m
    cases hm : mapFind m h <;> simp [hm]
  | cons f fs ih =>
    intro m
    rw [List.foldl_cons, ih (addFile m f), addFile_find]
    by_cases hh : h = f.hash
    · subst hh
      rw [if_pos rfl]
      cases hm : mapFind m f.hash <;>
        simp [List.filter_cons, show (f.hash == f.hash) = true by simp]
    · rw [if_neg hh]
      have hfh : (f.hash == h) = false := by simpa using fun e => hh e.symm
      cases hm : mapFind m h <;> simp [List.filter_cons, hfh]

theorem buildHashMap_find {files : List FileStats} {h : String}
    {g : List FileStats} (hg : mapFind (buildHashMap files) h = some g) :
    g = files.filter (fun r => r.hash == h) := by
  have h0 : mapFind (buildHashMap files) h
      = if files.filter (fun r => r.hash == h) = [] then none
        else some (files.filter (fun r => r.hash == h)) := by
    rw [buildHashMap, foldl_addFile_find]
    rfl
  rw [h0] at hg
  split at hg
  · exact Option.noConfusion hg
  · exact (Option.some.inj hg).symm

theorem find?_ctime_cons (m : Int) (a : FileStats) (l : List FileStats) :
    List.find? (fun r => r.ctime == m) (a :: l)
      = if a.ctime == m then some a
        else List.find? (fun r => r.ctime == m) l := by
  cases h : (a.ctime == m) <;> simp [List.find?, h]

theorem pyMinCtime_cons (x y : FileStats) (ys : List FileStats) :
    pyMinCtime x (y :: ys) = pyMinCtime (if y.ctime < x.ctime then y else x) ys :=
  rfl

theorem pyMinCtime_spec :
    ∀ (xs : List FileStats) (x : FileStats),
    pyMinCtime x xs ∈ x :: xs
    ∧ (∀ r ∈ x :: xs, (pyMinCtime x xs).ctime ≤ r.ctime)
    ∧ (x :: xs).find? (fun r => r.ctime == (pyMinCtime x xs).ctime)
        = some (pyMinCtime x xs) := by
  intro xs
  induction xs with
  | nil =>
    intro x
    refine ⟨List.mem_cons_self x [], ?_, ?_⟩
    · intro r hr
      rw [List.mem_singleton] at hr
      rw [hr]
      exact le_refl _
    · simp [pyMinCtime, List.find?]
  | cons y ys ih =>
    intro x
    rw [pyMinCtime_cons]
    rcases ih (if y.ctime < x.ctime then y else x) with ⟨hmem, hmin, hfind⟩
    have hminx : (pyMinCtime (if y.ctime < x.ctime then y else x) ys).ctime
        ≤ (if y.ctime < x.ctime then y else x).ctime :=
      hmin _ (List.mem_cons_self _ _)
    by_cases hyx : y.ctime < x.ctime
    · rw [if_pos hyx] at hmem hmin hfind hminx ⊢
      have hlt : (pyMinCtime y ys).ctime < x.ctime := lt_of_le_of_lt hminx hyx
      refine ⟨List.mem_cons_of_mem x hmem, ?_, ?_⟩
      · intro r hr
        rcases List.mem_cons.1 hr with hr | hr
        · rw [hr]; exact le_of_lt hlt
        · exact hmin r hr
      · have hxfail : (x.ctime == (pyMinCtime y ys).ctime) = false := by
          simp only [beq_eq_false_iff_ne]
          exact ne_of_gt hlt
        rw [find?_ctime_cons, hxfail, if_neg (by simp)]
        exact hfind
    · rw [if_neg hyx] at hmem hmin hfind hminx ⊢
      have hxy : x.ctime ≤ y.ctime := le_of_not_lt hyx
      refine ⟨?_, ?_, ?_⟩
      · rcases List.mem_cons.1 hmem with hm | hm
        · rw [hm]; exact List.mem_cons_self x (y :: ys)
        · exact List.mem_cons_of_mem x (List.mem_cons_of_mem y hm)
      · intro r hr
        rcases List.mem_cons.1 hr with hr | hr
        · rw [hr]; exact hminx
        · rcases List.mem_cons.1 hr with hr2 | hr2
          · rw [hr2]; exact le_trans hminx hxy
          · exact hmin r (List.mem_cons_of_mem x hr2)
      · rw [find?_ctime_cons] at hfind
        rw [find?_ctime_cons, find?_ctime_cons]
        by_cases hx : (x.ctime == (pyMinCtime x ys).ctime) = true
        · rw [if_pos hx] at hfind
          have hxeq : pyMinCtime x ys = x := (Option.some.inj hfind).symm
          rw [if_pos hx, hxeq]
        · have hyne : (y.ctime == (pyMinCtime x ys).ctime) = false := by
            simp only [beq_eq_false_iff_ne]
            intro hyc
            exact hx (beq_iff_eq.mpr (le_antisymm (hyc ▸ hxy) hminx))
          rw [if_neg (by simp [hx])] at hfind
          rw [if_neg (by simp [hx]), if_neg (by simp [hyne])]
          exact hfind

/-- Claim C10: in a hash group (which is exactly the scan-ordered sublist
of the inventory sharing that fingerprint), even when several records share
the minimal ctime, `min(file_list, key=...)` selects the first member
attaining the minimal ctime — the one appearing earliest in inventory
order — so original selection is a deterministic function of the
inventory. -/
theorem c10_tie_break_first (files : List FileStats) (h : String)
    (f0 : FileStats) (rest : List FileStats)
    (hg : mapFind (buildHashMap files) h = some (f0 :: rest))
    (_htie : 1 < ((f0 :: rest).filter
        (fun r => r.ctime == (pyMinCtime f0 rest).ctime)).length) :
    f0 :: rest = files.filter (fun r => r.hash == h)
    ∧ (f0 :: rest).find? (fun r => r.ctime == (pyMinCtime f0 rest).ctime)
        = some (pyMinCtime f0 rest)
    ∧ ∀ r ∈ f0 :: rest, (pyMinCtime f0 rest).ctime ≤ r.ctime :=
  ⟨buildHashMap_find hg, (pyMinCtime_spec rest f0).2.2, (pyMinCtime_spec rest f0).2.1⟩

/-- Claim C10 (witness): two records with equal fingerprints and equal
ctimes; the scan-earlier one is found first. -/
theorem c10_witness :
    mapFind (buildHashMap
        [⟨"/y/a.txt", 1, 5, 7, "644", "hh"⟩, ⟨"/y/b.txt", 1, 6, 7, "644", "hh"⟩])
      "hh" = some (⟨"/y/a.txt", 1, 5, 7, "644", "hh"⟩
        :: [⟨"/y/b.txt", 1, 6, 7, "644", "hh"⟩])
    ∧ 1 < (((⟨"/y/a.txt", 1, 5, 7, "644", "hh"⟩ : FileStats)
        :: [⟨"/y/b.txt", 1, 6, 7, "644", "hh"⟩]).filter
          (fun r => r.ctime == (pyMinCtime ⟨"/y/a.txt", 1, 5, 7, "644", "hh"⟩
            [⟨"/y/b.txt", 1, 6, 7, "644", "hh"⟩]).ctime)).length
    ∧ ((⟨"/y/a.txt", 1, 5, 7, "644", "hh"⟩ : FileStats)
          :: [⟨"/y/b.txt", 1, 6, 7, "644", "hh"⟩]
        = (([⟨"/y/a.txt", 1, 5, 7, "644", "hh"⟩,
            ⟨"/y/b.txt", 1, 6, 7, "644", "hh"⟩] : List FileStats)).filter
          (fun r => r.hash == "hh")
      ∧ ((⟨"/y/a.txt", 1, 5, 7, "644", "hh"⟩ : FileStats)
          :: [⟨"/y/b.txt", 1, 6, 7, "644", "hh"⟩]).find?
          (fun r => r.ctime == (pyMinCtime ⟨"/y/a.txt", 1, 5, 7, "644", "hh"⟩
            [⟨"/y/b.txt", 1, 6, 7, "644", "hh"⟩]).ctime)
        = some (pyMinCtime ⟨"/y/a.txt", 1, 5, 7, "644", "hh"⟩
            [⟨"/y/b.txt", 1, 6, 7, "644", "hh"⟩])
      ∧ ∀ r ∈ (⟨"/y/a.txt", 1, 5, 7, "644", "hh"⟩ : FileStats)
          :: [⟨"/y/b.txt", 1, 6, 7, "644", "hh"⟩],
          (pyMinCtime ⟨"/y/a.txt", 1, 5, 7, "644", "hh"⟩
            [⟨"/y/b.txt", 1, 6, 7, "644", "hh"⟩]).ctime ≤ r.ctime) :=
  ⟨by decide, by decide,
   c10_tie_break_first
     [⟨"/y/a.txt", 1, 5, 7, "644", "hh"⟩, ⟨"/y/b.txt", 1, 6, 7, "644", "hh"⟩]
     "hh" ⟨"/y/a.txt", 1, 5, 7, "644", "hh"⟩ [⟨"/y/b.txt", 1, 6, 7, "644", "hh"⟩]
     (by decide) (by decide)⟩

/-! ## Claim C5: no duplicate DELETE targets -/

/-- The subject paths of the DELETE suggestions of a batch, in order. -/
def deletePaths (l : List Suggestion) : List String :=
  (l.filter (fun s => s.suggestion == "DELETE")).map (·.path)

theorem deletePaths_append (a b : List Suggestion) :
    deletePaths (a ++ b) = deletePaths a ++ deletePaths b := by
  rw [deletePaths, List.filter_append, List.map_append]
  rfl

theorem mem_deletePaths {l : List Suggestion} {p : String} :
    p ∈ deletePaths l ↔ ∃ s, s ∈ l ∧ s.suggestion = "DELETE" ∧ s.path = p := by
  simp [deletePaths, List.mem_map, List.mem_filter, and_assoc]

theorem flatMap_sublist_mono {α β : Type} {g1 g2 : α → List β} :
    ∀ {l : List α}, (∀ x ∈ l, (g1 x).Sublist (g2 x)) →
    (l.flatMap g1).Sublist (l.flatMap g2) := by
  intro l
  induction l with
  | nil => intro _; exact List.Sublist.refl _
  | cons x l ih =>
    intro hp
    rw [List.flatMap_cons, List.flatMap_cons]
    exact List.Sublist.append (hp x (List.mem_cons_self x l))
      (ih (fun y hy => hp y (List.mem_cons_of_mem x hy)))

theorem map_eq_flatMap_singleton {α β : Type} (g : α → β) :
    ∀ l : List α, l.map g = l.flatMap (fun x => [g x]) := by
  intro l
  induction l with
  | nil => rfl
  | cons x l ih => rw [List.map_cons, List.flatMap_cons, ih]; rfl

theorem dp_groupSuggs_sublist (cfg : Config) (h : String) (l : List FileStats) :
    (deletePaths (groupSuggs cfg h l)).Sublist (l.map (·.path)) := by
  cases l with
  | nil =>
    have hnil : groupSuggs cfg h [] = [] := by
      unfold groupSuggs
      split <;> rfl
    rw [hnil]
    exact List.nil_sublist _
  | cons f0 rest =>
    simp only [groupSuggs]
    split
    · exact List.nil_sublist _
    · split
      · exact List.nil_sublist _
      · split
        · exact List.nil_sublist _
        · rw [deletePaths, List.filter_flatMap, List.map_flatMap,
            map_eq_flatMap_singleton]
          refine flatMap_sublist_mono ?_
          intro f hf
          split
          · simp
          · split <;> simp

theorem addFile_members (f : FileStats) :
    ∀ m : List (String × List FileStats),
    ((addFile m f).flatMap (·.2)).Perm (m.flatMap (·.2) ++ [f]) := by
  intro m
  induction m with
  | nil => simp [addFile]
  | cons e rest ih =>
    obtain ⟨k, v⟩ := e
    rw [addFile]
    split
    · rw [List.flatMap_cons, List.flatMap_cons, List.append_assoc,
        List.append_assoc]
      exact List.Perm.append_left v (List.perm_append_comm)
    · rw [List.flatMap_cons, List.flatMap_cons, List.append_assoc]
      exact List.Perm.append_left v ih

theorem buildHashMap_members :
    ∀ (files : List FileStats) (m : List (String × List FileStats)),
    ((files.foldl addFile m).flatMap (·.2)).Perm (m.flatMap (·.2) ++ files) := by
  intro files
  induction files with
  | nil => intro m; simp
  | cons f fs ih =>
    intro m
    rw [List.foldl_cons]
    refine (ih (addFile m f)).trans ?_
    have h1 := addFile_members f m
    have h2 : ((addFile m f).flatMap (·.2) ++ fs).Perm
        ((m.flatMap (·.2) ++ [f]) ++ fs) := h1.append_right fs
    refine h2.trans ?_
    rw [List.append_assoc]
    exact List.Perm.refl _

theorem dp_pass1_sublist (hm : List (String × List FileStats)) (cfg : Config) :
    (deletePaths (pass1 hm cfg)).Sublist
      (hm.flatMap (fun e => e.2.map (·.path))) := by
  rw [pass1, deletePaths, List.filter_flatMap, List.map_flatMap]
  exact flatMap_sublist_mono (fun e _ => dp_groupSuggs_sublist cfg e.1 e.2)

theorem dp_pass1_nodup {files : List FileStats} {cfg : Config}
    (hnodup : (files.map (·.path)).Nodup) :
    (deletePaths (pass1 (buildHashMap files) cfg)).Nodup := by
  refine (dp_pass1_sublist (buildHashMap files) cfg).nodup ?_
  have h2 : (buildHashMap files).flatMap (fun e => e.2.map (·.path))
      = ((buildHashMap files).flatMap (·.2)).map (·.path) :=
    (List.map_flatMap _ _ _).symm
  rw [h2]
  have h3 : (((buildHashMap files).flatMap (·.2)).map (·.path)).Perm
      (files.map (·.path)) := by
    have := buildHashMap_members files []
    rw [List.flatMap_nil, List.nil_append] at this
    exact this.map _
  exact h3.symm.nodup hnodup

theorem dp_pass2step_nodup (cfg : Config) {acc : List Suggestion}
    {f : FileStats} (hnd : (deletePaths acc).Nodup) :
    (deletePaths (pass2step cfg acc f)).Nodup := by
  rw [pass2step]
  split
  · exact hnd
  · rename_i hcheck
    have hnotin : f.path ∉ deletePaths acc := by
      intro hmem
      rw [mem_deletePaths] at hmem
      obtain ⟨s, hs, h1, h2⟩ := hmem
      exact hcheck (by rw [List.any_eq_true]; exact ⟨s, hs, by simp [h1, h2]⟩)
    split
    · rw [deletePaths_append]
      have hsingle : deletePaths [emptySugg f.path] = [f.path] := by
        simp [deletePaths, emptySugg]
      rw [hsingle, List.nodup_append]
      refine ⟨hnd, List.nodup_singleton _, ?_⟩
      intro a ha hb
      rw [List.mem_singleton] at hb
      exact hnotin (hb ▸ ha)
    · split
      · rw [deletePaths_append]
        have hsingle : deletePaths [tempSugg f.path] = [f.path] := by
          simp [deletePaths, tempSugg]
        rw [hsingle, List.nodup_append]
        refine ⟨hnd, List.nodup_singleton _, ?_⟩
        intro a ha hb
        rw [List.mem_singleton] at hb
        exact hnotin (hb ▸ ha)
      · rw [deletePaths_append, deletePaths_append]
        have hrn : deletePaths (if (newStemPair cfg f.path).2 = true
            ∧ newNameOf cfg f.path ≠ pathName f.path
            then [renameSugg cfg f.path] else []) = [] := by
          split <;> simp [deletePaths, renameSugg]
        have hpm : deletePaths (if f.permissions_octal ≠ cfg.permissions
            then [permSugg f] else []) = [] := by
          split <;> simp [deletePaths, permSugg]
        rw [hrn, hpm, List.append_nil, List.append_nil]
        exact hnd

theorem dp_foldl_pass2_nodup (cfg : Config) :
    ∀ (fs : List FileStats) (acc : List Suggestion),
    (deletePaths acc).Nodup →
    (deletePaths (fs.foldl (pass2step cfg) acc)).Nodup := by
  intro fs
  induction fs with
  | nil => intro acc h; exact h
  | cons f fs ih =>
    intro acc h
    rw [List.foldl_cons]
    exact ih _ (dp_pass2step_nodup cfg h)

/-- Claim C5: when the inventory has pairwise-distinct paths (the scanner's
invariant) and the hash map is the one the scanner builds, no two DELETE
suggestions of one classification run share a subject path. -/
theorem c5_delete_unique (files : List FileStats) (cfg : Config)
    (hnodup : (files.map (·.path)).Nodup) :
    (deletePaths
      (analyze_and_suggest_actions files (buildHashMap files) cfg)).Nodup := by
  rw [analyze_and_suggest_actions]
  exact dp_foldl_pass2_nodup cfg files _ (dp_pass1_nodup hnodup)

/-- Claim C5 (witness): a concrete inventory with distinct paths — a
duplicate pair plus an empty file — has pairwise-distinct DELETE targets. -/
theorem c5_witness :
    (([⟨"/y/a.txt", 3, 10, 1, "644", "h1"⟩, ⟨"/z/b.txt", 3, 20, 2, "644", "h1"⟩,
       ⟨"/z/e.txt", 0, 5, 5, "644", "h0"⟩] : List FileStats).map (·.path)).Nodup
    ∧ (deletePaths (analyze_and_suggest_actions
        [⟨"/y/a.txt", 3, 10, 1, "644", "h1"⟩, ⟨"/z/b.txt", 3, 20, 2, "644", "h1"⟩,
         ⟨"/z/e.txt", 0, 5, 5, "644", "h0"⟩]
        (buildHashMap
          [⟨"/y/a.txt", 3, 10, 1, "644", "h1"⟩, ⟨"/z/b.txt", 3, 20, 2, "644", "h1"⟩,
           ⟨"/z/e.txt", 0, 5, 5, "644", "h0"⟩])
        (defaultConfig "/x"))).Nodup :=
  ⟨by decide,
   c5_delete_unique
     [⟨"/y/a.txt", 3, 10, 1, "644", "h1"⟩, ⟨"/z/b.txt", 3, 20, 2, "644", "h1"⟩,
      ⟨"/z/e.txt", 0, 5, 5, "644", "h0"⟩]
     (defaultConfig "/x") (by decide)⟩

/-! ## Claim C6: zero-byte records get exactly one suggestion -/

theorem addFile_keys (f : FileStats) :
    ∀ m : List (String × List FileStats),
    (addFile m f).map (·.1)
      = if m.any (fun e => e.1 == f.hash) then m.map (·.1)
        else m.map (·.1) ++ [f.hash] := by
  intro m
  induction m with
  | nil => simp [addFile]
  | cons e rest ih =>
    obtain ⟨k, v⟩ := e
    rw [addFile]
    split
    · rename_i hk
      rw [List.any_cons]
      simp [hk]
    · rename_i hk
      rw [List.any_cons,
        show (((k, v).1 == f.hash) = false) by simpa using hk]
      rw [Bool.false_or, List.map_cons, List.map_cons, ih]
      split <;> rfl

theorem buildHashMap_keys_nodup (files : List FileStats) :
    ((buildHashMap files).map (·.1)).Nodup := by
  rw [buildHashMap]
  have haux : ∀ (fs : List FileStats) (m : List (String × List FileStats)),
      (m.map (·.1)).Nodup → ((fs.foldl addFile m).map (·.1)).Nodup := by
    intro fs
    induction fs with
    | nil => intro m h; exact h
    | cons f fs ih =>
      intro m h
      rw [List.foldl_cons]
      refine ih _ ?_
      rw [addFile_keys]
      split
      · exact h
      · rename_i hany
        rw [List.nodup_append]
        refine ⟨h, List.nodup_singleton _, ?_⟩
        intro a ha hb
        rw [List.mem_singleton] at hb
        rw [List.any_eq_true] at hany
        rw [List.mem_map] at ha
        obtain ⟨e, he, hek⟩ := ha
        exact hany ⟨e, he, by rw [hek, hb]; simp⟩
  exact haux files [] List.nodup_nil

theorem mem_eq_mapFind :
    ∀ {m : List (String × List FileStats)}, (m.map (·.1)).Nodup →
    ∀ {e : String × List FileStats}, e ∈ m → mapFind m e.1 = some e.2 := by
  intro m
  induction m with
  | nil => intro _ e he; exact absurd he (List.not_mem_nil e)
  | cons a rest ih =>
    intro hnd e he
    obtain ⟨k, v⟩ := a
    rw [List.map_cons, List.nodup_cons] at hnd
    rcases List.mem_cons.1 he with he | he
    · rw [he, mapFind_cons, if_pos (by simp)]
    · have hne : ¬ (k == e.1) = true := by
        simp only [beq_iff_eq]
        intro hk
        exact hnd.1 (by rw [hk]; exact List.mem_map_of_mem (·.1) he)
      rw [mapFind_cons, if_neg hne]
      exact ih hnd.2 he

theorem mem_buildHashMap_eq {files : List FileStats}
    {e : String × List FileStats} (he : e ∈ buildHashMap files) :
    e.2 = files.filter (fun x => x.hash == e.1) :=
  buildHashMap_find (mem_eq_mapFind (buildHashMap_keys_nodup files) he)

theorem pass1_no_path {files : List FileStats} {cfg : Config} {r : FileStats}
    (hnodup : (files.map (·.path)).Nodup)
    (hzero : ∀ a ∈ files, ∀ b ∈ files, a.hash = b.hash →
      (a.size = 0 ↔ b.size = 0))
    (hr : r ∈ files) (hsize : r.size = 0) :
    ∀ s ∈ pass1 (buildHashMap files) cfg, s.path ≠ r.path := by
  intro s hs heq
  obtain ⟨e, he, hmem⟩ := mem_pass1 hs
  obtain ⟨herr, f0, rest, hl, hsz, hlen, hcase⟩ := mem_groupSuggs_shape hmem
  have hge : e.2 = files.filter (fun x => x.hash == e.1) := mem_buildHashMap_eq he
  have hf0 : f0 ∈ e.2 := by rw [hl]; exact List.mem_cons_self _ _
  have hf0f : f0 ∈ files := by
    rw [hge] at hf0; exact (List.mem_filter.1 hf0).1
  have hf0h : f0.hash = e.1 := by
    rw [hge] at hf0; exact beq_iff_eq.mp (List.mem_filter.1 hf0).2
  have hchain : ∀ f ∈ e.2, f.path = r.path → False := by
    intro f hfl hfp
    have hff : f ∈ files := by
      rw [hge] at hfl; exact (List.mem_filter.1 hfl).1
    have hfh : f.hash = e.1 := by
      rw [hge] at hfl; exact beq_iff_eq.mp (List.mem_filter.1 hfl).2
    have hfr : f = r := List.inj_on_of_nodup_map hnodup hff hr hfp
    have hrh : r.hash = e.1 := hfr ▸ hfh
    exact hsz ((hzero f0 hf0f r hr (by rw [hf0h, hrh])).2 hsize)
  rcases hcase with ⟨f, hf, hne, hsEq⟩ | ⟨hst, hsEq⟩
  · refine hchain f (hl ▸ hf) ?_
    rw [hsEq] at heq
    simpa using heq
  · refine hchain (pyMinCtime f0 rest) (hl ▸ (pyMinCtime_spec rest f0).1) ?_
    rw [hsEq] at heq
    simpa using heq

theorem pass2step_filter_other {cfg : Config} {acc : List Suggestion}
    {f : FileStats} {p : String} (hne : f.path ≠ p) :
    (pass2step cfg acc f).filter (fun s => s.path == p)
      = acc.filter (fun s => s.path == p) := by
  have hfp : (f.path == p) = false := by simpa using hne
  rw [pass2step]
  split
  · rfl
  · split
    · rw [List.filter_append]
      simp [emptySugg, hfp]
    · split
      · rw [List.filter_append]
        simp [tempSugg, hfp]
      · rw [List.filter_append, List.filter_append]
        have h1 : (if (newStemPair cfg f.path).2 = true
            ∧ newNameOf cfg f.path ≠ pathName f.path
            then [renameSugg cfg f.path] else []).filter
              (fun s => s.path == p) = [] := by
          split <;> simp [renameSugg, hfp]
        have h2 : (if f.permissions_octal ≠ cfg.permissions
            then [permSugg f] else []).filter (fun s => s.path == p) = [] := by
          split <;> simp [permSugg, hfp]
        rw [h1, h2, List.append_nil, List.append_nil]

theorem foldl_pass2_filter_other {cfg : Config} {p : String} :
    ∀ {fs : List FileStats}, (∀ f ∈ fs, f.path ≠ p) →
    ∀ acc, (fs.foldl (pass2step cfg) acc).filter (fun s => s.path == p)
      = acc.filter (fun s => s.path == p) := by
  intro fs
  induction fs with
  | nil => intro _ acc; rfl
  | cons f fs ih =>
    intro hp acc
    rw [List.foldl_cons,
      ih (fun g hg => hp g (List.mem_cons_of_mem f hg)) _,
      pass2step_filter_other (hp f (List.mem_cons_self f fs))]

theorem pass2step_empty_case {cfg : Config} {acc : List Suggestion}
    {r : FileStats}
    (hnodel : ∀ s ∈ acc, ¬ (s.path = r.path ∧ s.suggestion = "DELETE"))
    (hsz : r.size = 0) :
    pass2step cfg acc r = acc ++ [emptySugg r.path] := by
  rw [pass2step, if_neg, if_pos hsz]
  intro hany
  rw [List.any_eq_true] at hany
  obtain ⟨s, hs, hcond⟩ := hany
  rw [Bool.and_eq_true, beq_iff_eq, beq_iff_eq] at hcond
  exact hnodel s hs hcond

/-- Claim C6: a zero-byte record (under the scanner's unique-path invariant
and the fingerprint contract that equal hashes agree on emptiness) receives
exactly one suggestion: EMPTY_FILE/DELETE — never DUPLICATE, TEMP_FILE,
RENAME or PERMISSIONS, whatever its fingerprint, name or permissions. -/
theorem c6_empty_exactly_one (files : List FileStats) (cfg : Config)
    (r : FileStats)
    (hnodup : (files.map (·.path)).Nodup)
    (hzero : ∀ a ∈ files, ∀ b ∈ files, a.hash = b.hash →
      (a.size = 0 ↔ b.size = 0))
    (hr : r ∈ files) (hsize : r.size = 0) :
    (analyze_and_suggest_actions files (buildHashMap files) cfg).filter
      (fun s => s.path == r.path) = [emptySugg r.path] := by
  obtain ⟨l1, l2, rfl⟩ := List.append_of_mem hr
  have hfresh : (∀ f ∈ l1, f.path ≠ r.path) ∧ ∀ f ∈ l2, f.path ≠ r.path := by
    rw [List.map_append, List.map_cons, List.nodup_append] at hnodup
    obtain ⟨hnd1, hnd2, hdisj⟩ := hnodup
    rw [List.nodup_cons] at hnd2
    constructor
    · intro f hf he
      exact hdisj (List.mem_map_of_mem (·.path) hf)
        (by rw [he]; exact List.mem_cons_self _ _)
    · intro f hf he
      exact hnd2.1 (he ▸ List.mem_map_of_mem (·.path) hf)
  have hp1 := @pass1_no_path _ cfg _ hnodup hzero hr hsize
  rw [analyze_and_suggest_actions, List.foldl_append, List.foldl_cons]
  have hacc1 : (l1.foldl (pass2step cfg)
        (pass1 (buildHashMap (l1 ++ r :: l2)) cfg)).filter
      (fun s => s.path == r.path) = [] := by
    rw [foldl_pass2_filter_other hfresh.1, List.filter_eq_nil_iff]
    intro s hs
    simpa using hp1 s hs
  have hacc1ne : ∀ s ∈ l1.foldl (pass2step cfg)
      (pass1 (buildHashMap (l1 ++ r :: l2)) cfg),
      ¬ (s.path = r.path ∧ s.suggestion = "DELETE") := by
    intro s hs hcond
    have := List.filter_eq_nil_iff.1 hacc1 s hs
    simp [hcond.1] at this
  rw [pass2step_empty_case hacc1ne hsize,
    foldl_pass2_filter_other hfresh.2, List.filter_append, hacc1,
    List.nil_append]
  simp [emptySugg]

/-- Claim C6 (witness): a zero-byte record whose name has a temp suffix, a
troublesome character and wrong permissions still yields exactly the one
EMPTY_FILE/DELETE suggestion. -/
theorem c6_witness :
    (([⟨"/y/empty:1.tmp", 0, 10, 1, "600", "h0"⟩,
       ⟨"/z/other.txt", 2, 11, 2, "644", "h1"⟩] : List FileStats).map
        (·.path)).Nodup
    ∧ (∀ a ∈ ([⟨"/y/empty:1.tmp", 0, 10, 1, "600", "h0"⟩,
        ⟨"/z/other.txt", 2, 11, 2, "644", "h1"⟩] : List FileStats),
       ∀ b ∈ ([⟨"/y/empty:1.tmp", 0, 10, 1, "600", "h0"⟩,
        ⟨"/z/other.txt", 2, 11, 2, "644", "h1"⟩] : List FileStats),
        a.hash = b.hash → (a.size = 0 ↔ b.size = 0))
    ∧ (⟨"/y/empty:1.tmp", 0, 10, 1, "600", "h0"⟩ : FileStats)
        ∈ ([⟨"/y/empty:1.tmp", 0, 10, 1, "600", "h0"⟩,
            ⟨"/z/other.txt", 2, 11, 2, "644", "h1"⟩] : List FileStats)
    ∧ (analyze_and_suggest_actions
        [⟨"/y/empty:1.tmp", 0, 10, 1, "600", "h0"⟩,
         ⟨"/z/other.txt", 2, 11, 2, "644", "h1"⟩]
        (buildHashMap
          [⟨"/y/empty:1.tmp", 0, 10, 1, "600", "h0"⟩,
           ⟨"/z/other.txt", 2, 11, 2, "644", "h1"⟩])
        (defaultConfig "/x")).filter
        (fun s => s.path == "/y/empty:1.tmp") = [emptySugg "/y/empty:1.tmp"] :=
  ⟨by decide, by decide, by decide,
   c6_empty_exactly_one
     [⟨"/y/empty:1.tmp", 0, 10, 1, "600", "h0"⟩,
      ⟨"/z/other.txt", 2, 11, 2, "644", "h1"⟩]
     (defaultConfig "/x") ⟨"/y/empty:1.tmp", 0, 10, 1, "600", "h0"⟩
     (by decide) (by decide) (by decide) (by decide)⟩

/-! ## Claim C7: MOVE_ORIGINAL emission -/

theorem emptySugg_type (p : String) : (emptySugg p).type = "EMPTY_FILE" := rfl

theorem tempSugg_type (p : String) : (tempSugg p).type = "TEMP_FILE" := rfl

theorem renameSugg_type (cfg : Config) (p : String) :
    (renameSugg cfg p).type = "RENAME" := rfl

theorem permSugg_type (f : FileStats) : (permSugg f).type = "PERMISSIONS" := rfl

theorem mem_analyze_pass1_of_type {files : List FileStats}
    {hm : List (String × List FileStats)} {cfg : Config} {s : Suggestion}
    (hs : s ∈ analyze_and_suggest_actions files hm cfg)
    (hty : s.type = "DUPLICATE" ∨ s.type = "MOVE_ORIGINAL") :
    s ∈ pass1 hm cfg := by
  rcases analyze_mem hs with h1 | ⟨f, hf, h1 | h1 | ⟨h1, -⟩ | h1⟩
  · exact h1
  · rcases hty with hty | hty <;> rw [h1, emptySugg_type] at hty <;>
      exact absurd hty (by decide)
  · rcases hty with hty | hty <;> rw [h1, tempSugg_type] at hty <;>
      exact absurd hty (by decide)
  · rcases hty with hty | hty <;> rw [h1, renameSugg_type] at hty <;>
      exact absurd hty (by decide)
  · rcases hty with hty | hty <;> rw [h1, permSugg_type] at hty <;>
      exact absurd hty (by decide)

theorem pass2step_sublist (cfg : Config) (acc : List Suggestion)
    (f : FileStats) : acc.Sublist (pass2step cfg acc f) := by
  rw [pass2step]
  split
  · exact List.Sublist.refl _
  · split
    · exact List.sublist_append_left _ _
    · split
      · exact List.sublist_append_left _ _
      · rw [List.append_assoc]
        exact List.sublist_append_left _ _

theorem foldl_pass2_sublist (cfg : Config) :
    ∀ (fs : List FileStats) (acc : List Suggestion),
    acc.Sublist (fs.foldl (pass2step cfg) acc) := by
  intro fs
  induction fs with
  | nil => intro acc; exact List.Sublist.refl _
  | cons f fs ih =>
    intro acc
    rw [List.foldl_cons]
    exact (pass2step_sublist cfg acc f).trans (ih _)

/-- Claim C7 (counterexample): with target directory `/x/ab`, a duplicate
group whose original lives in the sibling directory `/x/abc` — so the
original is *not* within or below the target — yields no MOVE_ORIGINAL
suggestion, because the code tests `str.startswith` on the raw path
strings, and `/x/abc/f.txt` starts with `/x/ab`. -/
theorem c7_counterexample :
    specPathWithin "/x/abc/f.txt" "/x/ab" = false
    ∧ mapFind (buildHashMap
        [⟨"/x/abc/f.txt", 1, 10, 1, "644", "hh"⟩,
         ⟨"/x/abc/g.txt", 1, 11, 2, "644", "hh"⟩]) "hh"
      = some [⟨"/x/abc/f.txt", 1, 10, 1, "644", "hh"⟩,
              ⟨"/x/abc/g.txt", 1, 11, 2, "644", "hh"⟩]
    ∧ (pyMinCtime ⟨"/x/abc/f.txt", 1, 10, 1, "644", "hh"⟩
        [⟨"/x/abc/g.txt", 1, 11, 2, "644", "hh"⟩]).path = "/x/abc/f.txt"
    ∧ (analyze_and_suggest_actions
        [⟨"/x/abc/f.txt", 1, 10, 1, "644", "hh"⟩,
         ⟨"/x/abc/g.txt", 1, 11, 2, "644", "hh"⟩]
        (buildHashMap
          [⟨"/x/abc/f.txt", 1, 10, 1, "644", "hh"⟩,
           ⟨"/x/abc/g.txt", 1, 11, 2, "644", "hh"⟩])
        (defaultConfig "/x/ab")).filter
        (fun s => s.type == "MOVE_ORIGINAL") = [] := by
  refine ⟨by decide, by decide, by decide, by decide⟩

/-- Claim C7 (amended): for a qualifying duplicate group, if the original's
path string does not start with the target directory's path string a
MOVE_ORIGINAL/MOVE_TO_X suggestion with destination `target_dir/basename`
is emitted; if it does start with it, none is emitted for that original;
and no path ever receives both a DUPLICATE and a MOVE_ORIGINAL
suggestion. -/
theorem c7_move_original_prefix (files : List FileStats) (cfg : Config)
    (h : String) (f0 : FileStats) (rest : List FileStats)
    (hnodup : (files.map (·.path)).Nodup)
    (hg : mapFind (buildHashMap files) h = some (f0 :: rest))
    (herr : strContains h "ERROR" = false)
    (hsz : f0.size ≠ 0)
    (hlen : 1 < (f0 :: rest).length) :
    (strStartsWith (pyMinCtime f0 rest).path cfg.target_dir = false →
      ({ type := "MOVE_ORIGINAL", path := (pyMinCtime f0 rest).path,
         suggestion := "MOVE_TO_X",
         reason := "Oryginalny plik (" ++ h ++ ") powinien znaleźć się w X.",
         target_path := some (pathJoin cfg.target_dir
           (pathName (pyMinCtime f0 rest).path)) } : Suggestion)
        ∈ analyze_and_suggest_actions files (buildHashMap files) cfg)
    ∧ (strStartsWith (pyMinCtime f0 rest).path cfg.target_dir = true →
      ∀ s ∈ analyze_and_suggest_actions files (buildHashMap files) cfg,
        s.type = "MOVE_ORIGINAL" → s.path ≠ (pyMinCtime f0 rest).path)
    ∧ (∀ s1 ∈ analyze_and_suggest_actions files (buildHashMap files) cfg,
       ∀ s2 ∈ analyze_and_suggest_actions files (buildHashMap files) cfg,
        s1.type = "DUPLICATE" → s2.type = "MOVE_ORIGINAL" →
        s1.path ≠ s2.path) := by
  obtain ⟨e, hefind, he2⟩ := Option.map_eq_some'.1 hg
  have hemem : e ∈ buildHashMap files := List.mem_of_find?_eq_some hefind
  have he1 : e.1 = h := by
    have hp := List.find?_some hefind
    simpa using hp
  have hgroup : f0 :: rest = files.filter (fun x => x.hash == h) := by
    rw [← he2, mem_buildHashMap_eq hemem, he1]
  have horigmem : pyMinCtime f0 rest ∈ f0 :: rest := (pyMinCtime_spec rest f0).1
  have horigf : pyMinCtime f0 rest ∈ files := by
    have := horigmem
    rw [hgroup] at this
    exact (List.mem_filter.1 this).1
  have horigh : (pyMinCtime f0 rest).hash = h := by
    have := horigmem
    rw [hgroup] at this
    exact beq_iff_eq.mp (List.mem_filter.1 this).2
  refine ⟨?_, ?_, ?_⟩
  · intro hst
    rw [analyze_and_suggest_actions]
    refine (foldl_pass2_sublist cfg files _).subset ?_
    rw [pass1, List.mem_flatMap]
    refine ⟨e, hemem, ?_⟩
    rw [he1, he2]
    simp only [groupSuggs]
    rw [if_neg (by rw [herr]; exact Bool.false_ne_true)]
    rw [if_neg hsz, if_neg (Nat.not_le_of_lt hlen)]
    rw [List.mem_flatMap]
    refine ⟨pyMinCtime f0 rest, horigmem, ?_⟩
    rw [if_neg (by simp), if_pos (by simp [hst])]
    exact List.mem_singleton.2 rfl
  · intro hst s hs hty heqp
    have hsp1 : s ∈ pass1 (buildHashMap files) cfg :=
      mem_analyze_pass1_of_type hs (Or.inr hty)
    obtain ⟨eB, heB, hmemB⟩ := mem_pass1 hsp1
    obtain ⟨herrB, f0B, restB, hlB, hszB, hlenB, hcaseB⟩ :=
      mem_groupSuggs_shape hmemB
    rcases hcaseB with ⟨f, hf, hne, hsEq⟩ | ⟨hstB, hsEq⟩
    · rw [hsEq] at hty
      exact absurd (show ("DUPLICATE" : String) = "MOVE_ORIGINAL" from hty)
        (by decide)
    · have hpB : (pyMinCtime f0B restB).path = (pyMinCtime f0 rest).path := by
        rw [hsEq] at heqp
        simpa using heqp
      have horigBmem : pyMinCtime f0B restB ∈ eB.2 :=
        hlB ▸ (pyMinCtime_spec restB f0B).1
      have horigBf : pyMinCtime f0B restB ∈ files := by
        rw [mem_buildHashMap_eq heB] at horigBmem
        exact (List.mem_filter.1 horigBmem).1
      have horigBh : (pyMinCtime f0B restB).hash = eB.1 := by
        have := horigBmem
        rw [mem_buildHashMap_eq heB] at this
        exact beq_iff_eq.mp (List.mem_filter.1 this).2
      have heqo : pyMinCtime f0B restB = pyMinCtime f0 rest :=
        List.inj_on_of_nodup_map hnodup horigBf horigf hpB
      have heB1 : eB.1 = h := by rw [← horigBh, heqo, horigh]
      have heB2 : eB.2 = f0 :: rest := by
        rw [mem_buildHashMap_eq heB, heB1, ← hgroup]
      rw [heB2] at hlB
      have hf0eq : f0B = f0 := (List.cons.inj hlB.symm).1
      have hresteq : restB = rest := (List.cons.inj hlB.symm).2
      rw [hf0eq, hresteq] at hstB
      rw [hstB] at hst
      exact Bool.noConfusion hst
  · intro s1 hs1 s2 hs2 hty1 hty2 heqp
    have hsp1 : s1 ∈ pass1 (buildHashMap files) cfg :=
      mem_analyze_pass1_of_type hs1 (Or.inl hty1)
    have hsp2 : s2 ∈ pass1 (buildHashMap files) cfg :=
      mem_analyze_pass1_of_type hs2 (Or.inr hty2)
    obtain ⟨eA, heA, hmemA⟩ := mem_pass1 hsp1
    obtain ⟨herrA, f0A, restA, hlA, hszA, hlenA, hcaseA⟩ :=
      mem_groupSuggs_shape hmemA
    obtain ⟨eB, heB, hmemB⟩ := mem_pass1 hsp2
    obtain ⟨herrB, f0B, restB, hlB, hszB, hlenB, hcaseB⟩ :=
      mem_groupSuggs_shape hmemB
    rcases hcaseA with ⟨f, hf, hneA, hsEqA⟩ | ⟨hstA, hsEqA⟩
    swap
    · rw [hsEqA] at hty1
      exact absurd (show ("MOVE_ORIGINAL" : String) = "DUPLICATE" from hty1)
        (by decide)
    rcases hcaseB with ⟨g, hgmem, hneB, hsEqB⟩ | ⟨hstB, hsEqB⟩
    · rw [hsEqB] at hty2
      exact absurd (show ("DUPLICATE" : String) = "MOVE_ORIGINAL" from hty2)
        (by decide)
    have hfp : f.path = (pyMinCtime f0B restB).path := by
      rw [hsEqA, hsEqB] at heqp
      simpa using heqp
    have hfA : f ∈ eA.2 := hf
    rw [mem_buildHashMap_eq heA] at hfA
    have hff : f ∈ files := (List.mem_filter.1 hfA).1
    have hfh : f.hash = eA.1 := beq_iff_eq.mp (List.mem_filter.1 hfA).2
    have horigBmem : pyMinCtime f0B restB ∈ eB.2 := by
      rw [hlB]
      exact (pyMinCtime_spec restB f0B).1
    rw [mem_buildHashMap_eq heB] at horigBmem
    have horigBf : pyMinCtime f0B restB ∈ files :=
      (List.mem_filter.1 horigBmem).1
    have horigBh : (pyMinCtime f0B restB).hash = eB.1 :=
      beq_iff_eq.mp (List.mem_filter.1 horigBmem).2
    have hfo : f = pyMinCtime f0B restB :=
      List.inj_on_of_nodup_map hnodup hff horigBf hfp
    have hkeys : eA.1 = eB.1 := by rw [← hfh, hfo, horigBh]
    have hsame : eA.2 = eB.2 := by
      rw [mem_buildHashMap_eq heA, mem_buildHashMap_eq heB, hkeys]
    have hlAB : f0A :: restA = f0B :: restB := by
      rw [← hlA, hsame, hlB]
    have hf0eq : f0A = f0B := (List.cons.inj hlAB).1
    have hresteq : restA = restB := (List.cons.inj hlAB).2
    apply hneA
    rw [hf0eq, hresteq, ← hfo]

/-- Concrete duplicate-group member for the C7 witness (the original). -/
def r7a : FileStats := ⟨"/y/a.txt", 3, 10, 1, "644", "h1"⟩

/-- Concrete duplicate-group member for the C7 witness (the copy). -/
def r7b : FileStats := ⟨"/z/b.txt", 3, 20, 2, "644", "h1"⟩

/-- Claim C7 (witness for the amended theorem): a two-member duplicate
group whose original is outside the target tree. -/
theorem c7_witness :
    (([r7a, r7b] : List FileStats).map (·.path)).Nodup
    ∧ mapFind (buildHashMap [r7a, r7b]) "h1" = some (r7a :: [r7b])
    ∧ strContains "h1" "ERROR" = false
    ∧ r7a.size ≠ 0
    ∧ 1 < (r7a :: [r7b]).length
    ∧ ((strStartsWith (pyMinCtime r7a [r7b]).path
          (defaultConfig "/x").target_dir = false →
        ({ type := "MOVE_ORIGINAL", path := (pyMinCtime r7a [r7b]).path,
           suggestion := "MOVE_TO_X",
           reason := "Oryginalny plik (" ++ "h1" ++ ") powinien znaleźć się w X.",
           target_path := some (pathJoin (defaultConfig "/x").target_dir
             (pathName (pyMinCtime r7a [r7b]).path)) } : Suggestion)
          ∈ analyze_and_suggest_actions [r7a, r7b] (buildHashMap [r7a, r7b])
              (defaultConfig "/x"))
      ∧ (strStartsWith (pyMinCtime r7a [r7b]).path
            (defaultConfig "/x").target_dir = true →
        ∀ s ∈ analyze_and_suggest_actions [r7a, r7b] (buildHashMap [r7a, r7b])
            (defaultConfig "/x"),
          s.type = "MOVE_ORIGINAL" → s.path ≠ (pyMinCtime r7a [r7b]).path)
      ∧ (∀ s1 ∈ analyze_and_suggest_actions [r7a, r7b]
            (buildHashMap [r7a, r7b]) (defaultConfig "/x"),
         ∀ s2 ∈ analyze_and_suggest_actions [r7a, r7b]
            (buildHashMap [r7a, r7b]) (defaultConfig "/x"),
          s1.type = "DUPLICATE" → s2.type = "MOVE_ORIGINAL" →
          s1.path ≠ s2.path)) :=
  ⟨by decide, by decide, by decide, by decide, by decide,
   c7_move_original_prefix [r7a, r7b] (defaultConfig "/x") "h1" r7a [r7b]
     (by decide) (by decide) (by decide) (by decide) (by decide)⟩

/-! ## Claim C8: RENAME destination properties -/

theorem rlastIdx_eq_none_iff {c : Char} :
    ∀ {l : List Char}, rlastIdx c l = none ↔ c ∉ l := by
  intro l
  induction l with
  | nil => simp [rlastIdx]
  | cons a as ih =>
    simp only [rlastIdx]
    cases h : rlastIdx c as with
    | some i =>
      have hmem : c ∈ as := by
        by_contra hc
        rw [ih.2 hc] at h
        exact Option.noConfusion h
      simp [hmem]
    | none =>
      by_cases hac : a = c
      · simp [hac]
      · simp only []
        rw [if_neg hac]
        constructor
        · intro _ hc
          rcases List.mem_cons.1 hc with hc | hc
          · exact hac hc.symm
          · exact (ih.1 h) hc
        · intro _; rfl

theorem rlastIdx_append (c : Char) (A B : List Char) :
    rlastIdx c (A ++ B)
      = match rlastIdx c B with
        | some i => some (A.length + i)
        | none => rlastIdx c A := by
  induction A with
  | nil => cases h : rlastIdx c B <;> simp [h, rlastIdx]
  | cons a A ih =>
    rw [List.cons_append]
    simp only [rlastIdx]
    rw [ih]
    cases hB : rlastIdx c B with
    | some i =>
      simp only [List.length_cons]
      rw [show A.length + 1 + i = A.length + i + 1 by omega]
    | none => rfl

theorem rlastIdx_some_drop {c : Char} :
    ∀ {l : List Char} {i : Nat}, rlastIdx c l = some i →
    ∃ t, l.drop i = c :: t ∧ c ∉ t := by
  intro l
  induction l with
  | nil => intro i h; exact Option.noConfusion h
  | cons a as ih =>
    intro i h
    simp only [rlastIdx] at h
    cases has : rlastIdx c as with
    | some j =>
      rw [has] at h
      simp only [] at h
      obtain ⟨t, ht, hct⟩ := ih has
      have hi : i = j + 1 := (Option.some.inj h).symm
      subst hi
      exact ⟨t, by rw [List.drop_succ_cons]; exact ht, hct⟩
    | none =>
      rw [has] at h
      simp only [] at h
      split at h
      · rename_i hac
        have hi : i = 0 := (Option.some.inj h).symm
        subst hi
        rw [List.drop_zero, hac]
        exact ⟨as, rfl, rlastIdx_eq_none_iff.1 has⟩
      · exact Option.noConfusion h

theorem rlastIdx_map_iff {c : Char} {g : Char → Char}
    (hg : ∀ a, g a = c ↔ a = c) :
    ∀ l : List Char, rlastIdx c (l.map g) = rlastIdx c l := by
  intro l
  induction l with
  | nil => rfl
  | cons a as ih =>
    rw [List.map_cons]
    simp only [rlastIdx]
    rw [ih]
    cases h : rlastIdx c as with
    | some i => rfl
    | none =>
      simp only []
      by_cases hac : a = c
      · rw [if_pos ((hg a).2 hac), if_pos hac]
      · rw [if_neg (fun e => hac ((hg a).1 e)), if_neg hac]

theorem pathNameL_no_slash (p : List Char) : '/' ∉ pathNameL p := by
  rw [pathNameL]
  cases h : rlastIdx '/' p with
  | none => exact rlastIdx_eq_none_iff.1 h
  | some i =>
    obtain ⟨t, ht, hct⟩ := rlastIdx_some_drop h
    have hd : p.drop (i + 1) = t := by
      rw [← List.drop_drop, ht, List.drop_succ_cons, List.drop_zero]
    show '/' ∉ p.drop (i + 1)
    rw [hd]
    exact hct

theorem toList_mk (l : List Char) : (String.mk l).toList = l := rfl

theorem mk_toList (s : String) : String.mk s.toList = s := rfl

theorem toList_append (a b : String) :
    (a ++ b).toList = a.toList ++ b.toList :=
  String.data_append a b

theorem pathName_no_slash (p : String) : '/' ∉ (pathName p).toList := by
  rw [pathName, toList_mk]
  exact pathNameL_no_slash _

theorem pathName_join (par n : String) (hn : '/' ∉ n.toList) :
    pathName (pathJoin par n) = n := by
  rw [pathJoin]
  split
  · have hn2 : rlastIdx '/' n.data = none := rlastIdx_eq_none_iff.2 hn
    have hl : ("/" ++ n).toList = '/' :: n.toList := by
      rw [toList_append]
      rfl
    rw [pathName, hl, pathNameL,
      show rlastIdx '/' ('/' :: n.toList) = some 0 by
        simp [rlastIdx, hn2]]
    show String.mk n.toList = n
    exact mk_toList n
  · have hn2 : rlastIdx '/' n.data = none := rlastIdx_eq_none_iff.2 hn
    have hl : (par ++ "/" ++ n).toList = par.toList ++ '/' :: n.toList := by
      rw [toList_append, toList_append, List.append_assoc]
      rfl
    rw [pathName, hl, pathNameL,
      show rlastIdx '/' (par.toList ++ '/' :: n.toList)
          = some (par.toList.length + 0) by
        rw [rlastIdx_append,
          show rlastIdx '/' ('/' :: n.toList) = some 0 by
            simp [rlastIdx, hn2]]]
    show String.mk (List.drop (par.toList.length + 0 + 1)
      (par.toList ++ '/' :: n.toList)) = n
    rw [show par.toList.length + 0 + 1 = par.toList.length + 1 by omega,
      List.drop_append]
    show String.mk n.toList = n
    exact mk_toList n

/-- The overall effect on one character of substituting every troublesome
character by the single substitute `sc`. -/
def gsub (chars : List Char) (sc : Char) (a : Char) : Char :=
  if a ∈ chars then sc else a

theorem replaceCharL_single (c sc : Char) :
    ∀ l : List Char, replaceCharL c [sc] l
      = l.map (fun a => if a = c then sc else a) := by
  intro l
  induction l with
  | nil => rfl
  | cons a as ih =>
    rw [replaceCharL, List.map_cons, ih]
    by_cases hac : a = c
    · rw [if_pos hac, if_pos hac]
      rfl
    · rw [if_neg hac, if_neg hac]
      rfl

theorem map_subst_id {c sc : Char} {l : List Char} (hc : c ∉ l) :
    l.map (fun a => if a = c then sc else a) = l := by
  rw [show l.map (fun a => if a = c then sc else a) = l.map id from
    List.map_congr_left (fun a ha => by
      rw [if_neg (fun e => hc (by rw [← e]; exact ha))]
      rfl)]
  exact List.map_id l

theorem gsub_ne {a c : Char} (sc : Char) (rest : List Char) (hac : a ≠ c) :
    gsub rest sc a = gsub (c :: rest) sc a := by
  rw [gsub, gsub]
  by_cases har : a ∈ rest
  · rw [if_pos har, if_pos (List.mem_cons_of_mem c har)]
  · rw [if_neg har, if_neg (fun hmem => by
      rcases List.mem_cons.1 hmem with e | e
      · exact hac e
      · exact har e)]

theorem gsub_step (c sc : Char) (rest : List Char) (hsc2 : sc ∉ rest)
    (a : Char) :
    gsub rest sc (if a = c then sc else a) = gsub (c :: rest) sc a := by
  by_cases hac : a = c
  · rw [if_pos hac, gsub, gsub, if_neg hsc2,
      if_pos (by rw [hac]; exact List.mem_cons_self c rest)]
  · rw [if_neg hac]
    exact gsub_ne sc rest hac

theorem substituteTrouble_map {sc : Char} :
    ∀ (chars : List Char) (stem : List Char) (b : Bool), sc ∉ chars →
    (chars.foldl
      (fun acc c => if c ∈ acc.1 then (replaceCharL c [sc] acc.1, true) else acc)
      (stem, b)).1 = stem.map (gsub chars sc) := by
  intro chars
  induction chars with
  | nil =>
    intro stem b _
    rw [List.foldl_nil]
    have hid : stem.map (gsub [] sc) = stem.map id :=
      List.map_congr_left (fun a _ => by
        rw [gsub, if_neg (List.not_mem_nil a)]
        rfl)
    rw [hid, List.map_id]
  | cons c rest ih =>
    intro stem b hsc
    have hsc2 : sc ∉ rest := fun e => hsc (List.mem_cons_of_mem c e)
    rw [List.foldl_cons]
    by_cases hc : c ∈ stem
    · rw [if_pos hc, ih _ true hsc2, replaceCharL_single, List.map_map]
      exact List.map_congr_left (fun a _ => gsub_step c sc rest hsc2 a)
    · rw [if_neg hc, ih stem b hsc2]
      exact List.map_congr_left (fun a ha =>
        gsub_ne sc rest (fun e => hc (by rw [← e]; exact ha)))

theorem newStemPair_eq {cfg : Config} {sc : Char}
    (hsub : cfg.substitute.toList = [sc]) (hsc : sc ∉ cfg.trouble_chars)
    (p : String) :
    (newStemPair cfg p).1
      = (pyStem (pathName p)).toList.map (gsub cfg.trouble_chars sc) := by
  rw [newStemPair, substituteTrouble, hsub]
  exact substituteTrouble_map cfg.trouble_chars _ false hsc

theorem gsub_no_trouble {chars : List Char} {sc : Char} (hsc : sc ∉ chars)
    {c : Char} (hc : c ∈ chars) (l : List Char) :
    c ∉ l.map (gsub chars sc) := by
  intro hmem
  rw [List.mem_map] at hmem
  obtain ⟨a, ha, hga⟩ := hmem
  by_cases hm : a ∈ chars
  · rw [gsub, if_pos hm] at hga
    exact hsc (by rw [hga]; exact hc)
  · rw [gsub, if_neg hm] at hga
    exact hm (by rw [hga]; exact hc)

theorem gsub_dot_cases (chars : List Char) (sc : Char) (hdot : sc ≠ '.') :
    (∀ a, gsub chars sc a ≠ '.') ∨ (∀ a, gsub chars sc a = '.' ↔ a = '.') := by
  by_cases hc : '.' ∈ chars
  · left
    intro a he
    by_cases hm : a ∈ chars
    · rw [gsub, if_pos hm] at he
      exact hdot he
    · rw [gsub, if_neg hm] at he
      exact hm (by rw [he]; exact hc)
  · right
    intro a
    constructor
    · intro he
      by_cases hm : a ∈ chars
      · rw [gsub, if_pos hm] at he
        exact absurd he hdot
      · rw [gsub, if_neg hm] at he
        exact he
    · intro he
      rw [he, gsub, if_neg hc]

theorem py_split (name : List Char) :
    (pySuffixL name = [] ∧ pyStemL name = name
      ∧ (rlastIdx '.' name = none
        ∨ ∃ j, rlastIdx '.' name = some j ∧ ¬(0 < j ∧ j + 1 < name.length)))
    ∨ (∃ i t, rlastIdx '.' name = some i ∧ 0 < i ∧ i + 1 < name.length
        ∧ pyStemL name = name.take i ∧ pySuffixL name = name.drop i
        ∧ name.drop i = '.' :: t ∧ '.' ∉ t ∧ t ≠ []) := by
  cases h : rlastIdx '.' name with
  | none =>
    left
    refine ⟨?_, ?_, Or.inl rfl⟩ <;> simp [pySuffixL, pyStemL, h]
  | some i =>
    by_cases hcond : 0 < i ∧ i + 1 < name.length
    · right
      obtain ⟨t, ht, hdot⟩ := rlastIdx_some_drop h
      refine ⟨i, t, rfl, hcond.1, hcond.2, ?_, ?_, ht, hdot, ?_⟩
      · simp [pyStemL, h, hcond]
      · simp [pySuffixL, h, hcond]
      · intro he
        rw [he] at ht
        have hlen := congrArg List.length ht
        rw [List.length_drop] at hlen
        simp at hlen
        omega
    · left
      refine ⟨?_, ?_, Or.inr ⟨i, rfl, hcond⟩⟩ <;>
        simp [pySuffixL, pyStemL, h, hcond]

theorem newname_split (name : List Char) (g : Char → Char)
    (hg : (∀ a, g a ≠ '.') ∨ (∀ a, g a = '.' ↔ a = '.')) :
    pySuffixL ((pyStemL name).map g ++ pySuffixL name) = pySuffixL name
    ∧ pyStemL ((pyStemL name).map g ++ pySuffixL name) = (pyStemL name).map g := by
  rcases py_split name with ⟨hs, hst, hcase⟩ |
    ⟨i, t, hidx, h0, hlt, hstem, hsuf, hdrop, hdotmem, htne⟩
  · rw [hs, hst, List.append_nil]
    rcases hg with hg | hg
    · have hnone : rlastIdx '.' (name.map g) = none := by
        rw [rlastIdx_eq_none_iff]
        intro hmem
        rw [List.mem_map] at hmem
        obtain ⟨a, -, ha⟩ := hmem
        exact hg a ha
      constructor <;> simp [pySuffixL, pyStemL, hnone]
    · have heq : rlastIdx '.' (name.map g) = rlastIdx '.' name :=
        rlastIdx_map_iff hg name
      rcases hcase with hnone | ⟨j, hj, hcond⟩
      · constructor <;> simp [pySuffixL, pyStemL, heq, hnone]
      · have hlenm : (name.map g).length = name.length := List.length_map name g
        constructor <;> simp [pySuffixL, pyStemL, heq, hj, hlenm, hcond]
  · have htlen : 0 < t.length := List.length_pos.2 htne
    have hlenstem : ((pyStemL name).map g).length = i := by
      rw [List.length_map, hstem, List.length_take]
      omega
    have hB : pySuffixL name = '.' :: t := by rw [hsuf, hdrop]
    have hBr : rlastIdx '.' ('.' :: t) = some 0 := by
      simp [rlastIdx, rlastIdx_eq_none_iff.2 hdotmem]
    rw [hB]
    have happ : rlastIdx '.' ((pyStemL name).map g ++ '.' :: t) = some i := by
      rw [rlastIdx_append, hBr]
      show some (((pyStemL name).map g).length + 0) = some i
      rw [Nat.add_zero, hlenstem]
    have hlen2 : ((pyStemL name).map g ++ '.' :: t).length = i + 1 + t.length := by
      rw [List.length_append, hlenstem, List.length_cons]
      omega
    constructor
    · simp only [pySuffixL, happ]
      rw [if_pos ⟨h0, by rw [hlen2]; omega⟩]
      rw [show i = ((pyStemL name).map g).length from hlenstem.symm,
        List.drop_left]
    · generalize hQ : (pyStemL name).map g = Q at happ hlenstem hlen2 ⊢
      simp only [pyStemL, happ]
      rw [if_pos ⟨h0, by rw [hlen2]; omega⟩]
      rw [show i = Q.length from hlenstem.symm, List.take_left]

theorem pyStemL_subset (l : List Char) : pyStemL l ⊆ l := by
  rw [pyStemL]
  cases h : rlastIdx '.' l with
  | none => exact fun a ha => ha
  | some i =>
    show (if 0 < i ∧ i + 1 < l.length then List.take i l else l) ⊆ l
    split
    · exact List.take_subset i l
    · exact fun a ha => ha

theorem pySuffixL_subset (l : List Char) : pySuffixL l ⊆ l := by
  rw [pySuffixL]
  cases h : rlastIdx '.' l with
  | none => exact fun a ha => absurd ha (List.not_mem_nil a)
  | some i =>
    show (if 0 < i ∧ i + 1 < l.length then List.drop i l else []) ⊆ l
    split
    · exact List.drop_subset i l
    · exact fun a ha => absurd ha (List.not_mem_nil a)

theorem pyStem_toList (n : String) : (pyStem n).toList = pyStemL n.toList := rfl

theorem pySuffix_toList (n : String) :
    (pySuffix n).toList = pySuffixL n.toList := rfl

theorem newNameOf_toList {cfg : Config} {sc : Char}
    (hsub : cfg.substitute.toList = [sc]) (hscnt : sc ∉ cfg.trouble_chars)
    (p : String) :
    (newNameOf cfg p).toList
      = (pyStemL (pathName p).toList).map (gsub cfg.trouble_chars sc)
        ++ pySuffixL (pathName p).toList := by
  rw [newNameOf, toList_append, toList_mk, newStemPair_eq hsub hscnt,
    pyStem_toList, pySuffix_toList]

theorem newNameOf_no_slash {cfg : Config} {sc : Char}
    (hsub : cfg.substitute.toList = [sc]) (hscnt : sc ∉ cfg.trouble_chars)
    (hslash : sc ≠ '/') (p : String) :
    '/' ∉ (newNameOf cfg p).toList := by
  rw [newNameOf_toList hsub hscnt]
  intro hmem
  rcases List.mem_append.1 hmem with hmem | hmem
  · rw [List.mem_map] at hmem
    obtain ⟨a, ha, hga⟩ := hmem
    have hanl : a ∈ (pathName p).toList := pyStemL_subset _ ha
    by_cases hm : a ∈ cfg.trouble_chars
    · rw [gsub, if_pos hm] at hga
      exact hslash hga
    · rw [gsub, if_neg hm] at hga
      exact pathName_no_slash p (by rw [← hga]; exact hanl)
  · exact pathName_no_slash p (pySuffixL_subset _ hmem)

/-- Claim C8 (counterexample): with troublesome characters `:` and `_` and
substitute `_`, the file `a:b.txt` is renamed to `a_b.txt`, whose base name
contains the configured troublesome character `_` — contradicting the claim
that the destination base name contains no configured troublesome
character. -/
theorem c8_counterexample :
    analyze_and_suggest_actions [⟨"/y/a:b.txt", 3, 10, 1, "644", "h1"⟩]
        (buildHashMap [⟨"/y/a:b.txt", 3, 10, 1, "644", "h1"⟩])
        ⟨"644", [':', '_'], "_", defaultTempExts, "/x"⟩
      = [renameSugg ⟨"644", [':', '_'], "_", defaultTempExts, "/x"⟩ "/y/a:b.txt"]
    ∧ (renameSugg ⟨"644", [':', '_'], "_", defaultTempExts, "/x"⟩
        "/y/a:b.txt").target_path = some "/y/a_b.txt"
    ∧ '_' ∈ (⟨"644", [':', '_'], "_", defaultTempExts, "/x"⟩ : Config).trouble_chars
    ∧ '_' ∈ (pyStem (pathName "/y/a_b.txt")).toList := by
  refine ⟨by decide, by decide, by decide, by decide⟩

/-- Claim C8 (amended): provided the configured substitute is one single
character that is not itself troublesome, not the dot, and not the path
separator, every emitted RENAME suggestion's destination keeps the source
extension, its destination base name contains no troublesome character, and
its destination name differs from the source name (so no suggestion is
emitted when the substitution would be a no-op). -/
theorem c8_rename_properties (files : List FileStats)
    (hm : List (String × List FileStats)) (cfg : Config) (sc : Char)
    (hsub : cfg.substitute.toList = [sc])
    (hscnt : sc ∉ cfg.trouble_chars)
    (hdot : sc ≠ '.')
    (hslash : sc ≠ '/') :
    ∀ s ∈ analyze_and_suggest_actions files hm cfg, s.type = "RENAME" →
    ∃ d, s.target_path = some d
      ∧ pySuffix (pathName d) = pySuffix (pathName s.path)
      ∧ (∀ c ∈ cfg.trouble_chars, c ∉ (pyStem (pathName d)).toList)
      ∧ pathName d ≠ pathName s.path := by
  intro s hs hty
  rcases analyze_mem hs with h1 | ⟨f, hf, h1 | h1 | ⟨h1, hguard⟩ | h1⟩
  · rcases mem_pass1_type h1 with h2 | h2 <;> rw [hty] at h2 <;>
      exact absurd h2 (by decide)
  · rw [h1, emptySugg_type] at hty
    exact absurd hty (by decide)
  · rw [h1, tempSugg_type] at hty
    exact absurd hty (by decide)
  · subst h1
    have hnd : pathName (pathJoin (pathParent f.path) (newNameOf cfg f.path))
        = newNameOf cfg f.path :=
      pathName_join _ _ (newNameOf_no_slash hsub hscnt hslash f.path)
    have hsplit := newname_split (pathName f.path).toList
      (gsub cfg.trouble_chars sc) (gsub_dot_cases cfg.trouble_chars sc hdot)
    refine ⟨pathJoin (pathParent f.path) (newNameOf cfg f.path), rfl, ?_, ?_, ?_⟩
    · show pySuffix (pathName (pathJoin (pathParent f.path)
        (newNameOf cfg f.path))) = pySuffix (pathName f.path)
      rw [hnd, pySuffix, pySuffix, newNameOf_toList hsub hscnt, hsplit.1]
    · intro c hc
      show c ∉ (pyStem (pathName (pathJoin (pathParent f.path)
        (newNameOf cfg f.path)))).toList
      rw [hnd, pyStem_toList, newNameOf_toList hsub hscnt, hsplit.2]
      exact gsub_no_trouble hscnt hc _
    · show pathName (pathJoin (pathParent f.path) (newNameOf cfg f.path))
        ≠ pathName f.path
      rw [hnd]
      exact hguard
  · rw [h1, permSugg_type] at hty
    exact absurd hty (by decide)

/-- The concrete configuration used by the C8 witness. -/
def c8wCfg : Config := ⟨"644", [':'], "_", defaultTempExts, "/x"⟩

/-- The concrete inventory record used by the C8 witness. -/
def c8wRec : FileStats := ⟨"/y/a:b.txt", 3, 10, 1, "644", "h1"⟩

/-- Claim C8 (witness for the amended theorem): the file `a:b.txt`, with
troublesome `:` and substitute `_`, is renamed; its destination keeps the
`.txt` extension and a troubleless base. -/
theorem c8_witness :
    c8wCfg.substitute.toList = ['_']
    ∧ '_' ∉ c8wCfg.trouble_chars
    ∧ ('_' : Char) ≠ '.'
    ∧ ('_' : Char) ≠ '/'
    ∧ renameSugg c8wCfg "/y/a:b.txt"
        ∈ analyze_and_suggest_actions [c8wRec] (buildHashMap [c8wRec]) c8wCfg
    ∧ (renameSugg c8wCfg "/y/a:b.txt").type = "RENAME"
    ∧ ∃ d, (renameSugg c8wCfg "/y/a:b.txt").target_path = some d
        ∧ pySuffix (pathName d)
            = pySuffix (pathName (renameSugg c8wCfg "/y/a:b.txt").path)
        ∧ (∀ c ∈ c8wCfg.trouble_chars, c ∉ (pyStem (pathName d)).toList)
        ∧ pathName d ≠ pathName (renameSugg c8wCfg "/y/a:b.txt").path :=
  ⟨by decide, by decide, by decide, by decide, by decide, rfl,
   c8_rename_properties [c8wRec] (buildHashMap [c8wRec]) c8wCfg '_'
     (by decide) (by decide) (by decide) (by decide)
     (renameSugg c8wCfg "/y/a:b.txt") (by decide) rfl⟩
